import Mathlib

set_option maxRecDepth 40000

/-!
# Verification of the LDF framework lifecycle core

A shallow embedding of the `ldf` repository's state-classification and
reconciliation (diff + apply) subsystem, together with the checksum
machinery from `ldf/init.py`, and proofs of the specified properties.

File contents are modelled as byte lists (`List Nat`), filesystem paths as
component lists (`List String`), and the persisted configuration document
as an explicit record.  The `yaml` parser and `hashlib` are external
libraries: YAML parsing is modelled by its outcome (a parse-result datum on
each file node), and `hashlib.sha256` is modelled by a state that
accumulates the fed bytes together with a full executable SHA-256 over the
accumulated bytes, which is the documented semantics of incremental
hashing.
-/

namespace Ldf

/-! ## Association lists (the in-memory shape of the checksum registry and
of directory listings) -/

/-- Look a key up in an association list (first match wins). -/
def alookup {α β : Type} [DecidableEq α] (k : α) : List (α × β) → Option β
  | [] => none
  | e :: rest => if e.1 = k then some e.2 else alookup k rest

/-- Insert or replace the binding of a key in an association list. -/
def aupsert {α β : Type} [DecidableEq α] (k : α) (v : β) : List (α × β) → List (α × β)
  | [] => [(k, v)]
  | e :: rest => if e.1 = k then (k, v) :: rest else e :: aupsert k v rest

/-! ## Byte streams in fixed-size chunks

`ldf.init.compute_file_checksum` reads the file with
`iter(lambda: f.read(8192), b"")`: successive chunks of at most 8192 bytes
until the read at end-of-file returns the empty bytes object. -/

/-- Fuel-indexed chunking: each step emits one chunk of `n + 1` bytes and
consumes at least one byte, so a fuel of `l.length` always suffices.  The
fuel makes the recursion structural, hence kernel-reducible. -/
def chunkedFuel : Nat → Nat → List Nat → List (List Nat)
  | _, _, [] => []
  | _, 0, _ :: _ => []
  | 0, _ + 1, _ :: _ => []
  | n + 1, fuel + 1, a :: l => ((a :: l).take (n + 1)) :: chunkedFuel (n + 1) fuel (l.drop n)

/-- Split a byte list into successive chunks of `n` bytes (the final chunk
may be shorter); for `n = 0` no chunk is ever produced, mirroring that a
zero-byte read never terminates the iterator productively. -/
def chunked (n : Nat) (l : List Nat) : List (List Nat) := chunkedFuel n l.length l

/-! ## SHA-256 (the reference whole-content digest)

A direct executable transcription of FIPS 180-4 over byte lists, used both
as the model of `hashlib.sha256` and as the whole-content reference digest
that the chunked implementation is compared against. -/

/-- Truncate to a 32-bit word. -/
def w32 (x : Nat) : Nat := x % 4294967296

/-- Rotate a 32-bit word right by `n`. -/
def rotr32 (n x : Nat) : Nat := w32 ((x >>> n) ||| (x <<< (32 - n)))

def sigmaSmall0 (x : Nat) : Nat := (rotr32 7 x) ^^^ (rotr32 18 x) ^^^ (x >>> 3)

def sigmaSmall1 (x : Nat) : Nat := (rotr32 17 x) ^^^ (rotr32 19 x) ^^^ (x >>> 10)

def sigmaBig0 (x : Nat) : Nat := (rotr32 2 x) ^^^ (rotr32 13 x) ^^^ (rotr32 22 x)

def sigmaBig1 (x : Nat) : Nat := (rotr32 6 x) ^^^ (rotr32 11 x) ^^^ (rotr32 25 x)

def chFn (x y z : Nat) : Nat := (x &&& y) ^^^ ((x ^^^ 4294967295) &&& z)

def majFn (x y z : Nat) : Nat := (x &&& y) ^^^ (x &&& z) ^^^ (y &&& z)

/-- The 64 SHA-256 round constants. -/
def sha256K : List Nat :=
  [1116352408, 1899447441, 3049323471, 3921009573,
   961987163, 1508970993, 2453635748, 2870763221,
   3624381080, 310598401, 607225278, 1426881987,
   1925078388, 2162078206, 2614888103, 3248222580,
   3835390401, 4022224774, 264347078, 604807628,
   770255983, 1249150122, 1555081692, 1996064986,
   2554220882, 2821834349, 2952996808, 3210313671,
   3336571891, 3584528711, 113926993, 338241895,
   666307205, 773529912, 1294757372, 1396182291,
   1695183700, 1986661051, 2177026350, 2456956037,
   2730485921, 2820302411, 3259730800, 3345764771,
   3516065817, 3600352804, 4094571909, 275423344,
   430227734, 506948616, 659060556, 883997877,
   958139571, 1322822218, 1537002063, 1747873779,
   1955562222, 2024104815, 2227730452, 2361852424,
   2428436474, 2756734187, 3204031479, 3329325298]

/-- The initial SHA-256 hash state. -/
def sha256H0 : List Nat :=
  [1779033703, 3144134277, 1013904242, 2773480762,
   1359893119, 2600822924, 528734635, 1541459225]

/-- Pad a message to a multiple of 64 bytes: append the 0x80 byte, then
zeros, then the bit length as 8 big-endian bytes. -/
def padMessage (msg : List Nat) : List Nat :=
  let len := msg.length
  let zeros := List.replicate ((119 - len % 64) % 64) 0
  let bl := (8 * len) % 18446744073709551616
  msg ++ (128 :: zeros) ++
    [bl >>> 56 % 256, bl >>> 48 % 256, bl >>> 40 % 256, bl >>> 32 % 256,
     bl >>> 24 % 256, bl >>> 16 % 256, bl >>> 8 % 256, bl % 256]

/-- Group bytes into 32-bit big-endian words. -/
def bytesToWords : List Nat → List Nat
  | b0 :: b1 :: b2 :: b3 :: rest =>
    (((b0 * 256 + b1) * 256 + b2) * 256 + b3) :: bytesToWords rest
  | _ => []

/-- Extend the message schedule by one word. -/
def scheduleNext (w : List Nat) : List Nat :=
  w ++ [w32 (sigmaSmall1 (w.getD (w.length - 2) 0) + w.getD (w.length - 7) 0 +
             sigmaSmall0 (w.getD (w.length - 15) 0) + w.getD (w.length - 16) 0)]

/-- The full 64-word message schedule of one block. -/
def fullSchedule (w : List Nat) : List Nat := Nat.repeat scheduleNext 48 w

/-- One SHA-256 round on the working variables `[a, b, c, d, e, f, g, h]`. -/
def sha256Round (st : List Nat) (kw : Nat × Nat) : List Nat :=
  match st with
  | [a, b, c, d, e, f, g, h] =>
    let t1 := w32 (h + sigmaBig1 e + chFn e f g + kw.1 + kw.2)
    let t2 := w32 (sigmaBig0 a + majFn a b c)
    [w32 (t1 + t2), a, b, c, w32 (d + t1), e, f, g]
  | other => other

/-- Compress one 64-byte block into the hash state. -/
def sha256Compress (h : List Nat) (block : List Nat) : List Nat :=
  let w := fullSchedule (bytesToWords block)
  let st := (sha256K.zip w).foldl sha256Round h
  (h.zip st).map (fun p => w32 (p.1 + p.2))

def hexDigit (n : Nat) : Char := Char.ofNat (if n < 10 then 48 + n else 87 + n)

/-- Lowercase hex rendering of a 32-bit word, 8 digits. -/
def hexWord (x : Nat) : List Char :=
  [hexDigit (x >>> 28 &&& 15), hexDigit (x >>> 24 &&& 15),
   hexDigit (x >>> 20 &&& 15), hexDigit (x >>> 16 &&& 15),
   hexDigit (x >>> 12 &&& 15), hexDigit (x >>> 8 &&& 15),
   hexDigit (x >>> 4 &&& 15), hexDigit (x &&& 15)]

/-- SHA-256 of a full byte content at once, as a lowercase hex digest:
the whole-content reference the spec describes. -/
def sha256hex (msg : List Nat) : String :=
  let hs := (chunked 64 (padMessage msg)).foldl sha256Compress sha256H0
  String.mk (hs.map hexWord).flatten

/-! ## `hashlib.sha256` incremental-state model and
`ldf.init.compute_file_checksum` -/

/-- Model of a `hashlib.sha256()` object: it accumulates every byte fed to
`update`, and `hexdigest` is the SHA-256 hex digest of the accumulated
bytes (the documented semantics of incremental hashing). -/
structure HashlibSha256 where
  fed : List Nat

/-- `sha256.update(chunk)`: feed more bytes. -/
def HashlibSha256.push (s : HashlibSha256) (chunk : List Nat) : HashlibSha256 :=
  ⟨s.fed ++ chunk⟩

/-- `sha256.hexdigest()`. -/
def HashlibSha256.hexdigest (s : HashlibSha256) : String := sha256hex s.fed

/-- `ldf.init.compute_file_checksum`: stream the file content in fixed
8192-byte chunks through an incremental SHA-256 and return the hex
digest. -/
def compute_file_checksum (content : List Nat) : String :=
  ((chunked 8192 content).foldl HashlibSha256.push ⟨[]⟩).hexdigest

end Ldf

namespace Ldf

/-! ## Data model of the reconciliation core

Modelled from the spec: the modules `ldf/detection.py` and `ldf/update.py`
are distributed with the repository but are not part of the sources at
hand (only their tests and their CLI caller are), so the Diff Computer,
the Conflict Resolver / Update Applier, the Checksum Registry persistence
and the State Classifier below are transcribed from the specification
(sections 3, 4.2, 4.3, 4.4) and the observable contract in
`tests/test_update.py`, `tests/test_detection.py` and `ldf/cli.py`. -/

/-- A filesystem path relative to the project's `.ldf` directory, as its
components. -/
abbrev LPath := List String

/-- File contents as bytes. -/
abbrev Content := List Nat

def tplCat : String := "templates"

def macCat : String := "macros"

def qpCat : String := "question-packs"

def specsDir : String := "specs"

def answerpacksDir : String := "answerpacks"

/-- The three updatable component categories, in scan order. -/
def allComponents : List String := [tplCat, macCat, qpCat]

/-- The persisted configuration document (`.ldf/config.yaml`): the version
metadata and the checksum registry stored under the reserved `_checksums`
key. -/
structure ProjectConfig where
  framework_version : Option String := none
  framework_updated : Option String := none
  checksums : List (LPath × String) := []
deriving DecidableEq

/-- A project's `.ldf` tree: the managed and user files keyed by relative
path, plus the configuration document. -/
structure Project where
  files : List (LPath × Content) := []
  config : ProjectConfig := {}
deriving DecidableEq

/-- The framework installation's canonical asset tree (read-only input):
for each category, canonical file name and content. -/
structure Framework where
  version : String
  templates : List (String × Content) := []
  macros : List (String × Content) := []
  question_packs : List (String × Content) := []
deriving DecidableEq

/-- Read a project file. -/
def lookupFile (p : Project) (path : LPath) : Option Content :=
  alookup path p.files

/-- `registry.lookup(path)`. -/
def registryLookup (p : Project) (path : LPath) : Option String :=
  alookup path p.config.checksums

/-- A file the diff wants to write: target path and canonical content. -/
structure FileChange where
  path : LPath
  content : Content
deriving DecidableEq

/-- A conflict: path, the project's current content, the framework's new
content, and the stale registry checksum. -/
structure Conflict where
  file_path : LPath
  local_content : Content
  framework_content : Content
  stored_checksum : String
deriving DecidableEq

/-- The result of the Diff Computer. -/
structure UpdateDiff where
  files_to_add : List FileChange := []
  files_to_update : List FileChange := []
  files_unchanged : List LPath := []
  conflicts : List Conflict := []
deriving DecidableEq

def UpdateDiff.append (d1 d2 : UpdateDiff) : UpdateDiff :=
  { files_to_add := d1.files_to_add ++ d2.files_to_add
  , files_to_update := d1.files_to_update ++ d2.files_to_update
  , files_unchanged := d1.files_unchanged ++ d2.files_unchanged
  , conflicts := d1.conflicts ++ d2.conflicts }

/-- How a single canonical file relates to the project's copy. -/
inductive FileClass
  | toAdd
  | unchanged
  | toUpdate
  | conflicting (localContent : Content) (stored : String)
deriving DecidableEq

/-- Always-overwrite policy (templates, macros): absent means add, a
content digest differing from the canonical digest means update, equal
digest means unchanged; never a conflict. -/
def classifyAlways (proj : Project) (cat : String) (e : String × Content) : FileClass :=
  match lookupFile proj [cat, e.1] with
  | none => .toAdd
  | some c =>
    if compute_file_checksum c = compute_file_checksum e.2 then .unchanged else .toUpdate

/-- Checksum-guarded policy (question packs), the per-file algorithm of
spec section 4.3. -/
def classifyPack (proj : Project) (e : String × Content) : FileClass :=
  match lookupFile proj [qpCat, e.1] with
  | none => .toAdd
  | some c =>
    if compute_file_checksum c = compute_file_checksum e.2 then .unchanged
    else
      match registryLookup proj [qpCat, e.1] with
      | none => .toUpdate
      | some stored =>
        if stored = compute_file_checksum c then .toUpdate else .conflicting c stored

/-- Assemble one category's contribution to the diff from its per-file
classification. -/
def diffOf (cat : String) (cls : (String × Content) → FileClass)
    (entries : List (String × Content)) : UpdateDiff :=
  { files_to_add := entries.filterMap fun e =>
      match cls e with
      | .toAdd => some ⟨[cat, e.1], e.2⟩
      | _ => none
  , files_to_update := entries.filterMap fun e =>
      match cls e with
      | .toUpdate => some ⟨[cat, e.1], e.2⟩
      | _ => none
  , files_unchanged := entries.filterMap fun e =>
      match cls e with
      | .unchanged => some [cat, e.1]
      | _ => none
  , conflicts := entries.filterMap fun e =>
      match cls e with
      | .conflicting c stored => some ⟨[cat, e.1], c, e.2, stored⟩
      | _ => none }

/-- `ldf.update.get_update_diff(project_root, components)`: compare the
canonical assets of the selected categories (default: all three) against
the project tree and the checksum registry. Read-only. -/
def get_update_diff (fw : Framework) (proj : Project)
    (components : Option (List String)) : UpdateDiff :=
  let comps := components.getD allComponents
  let d1 := if tplCat ∈ comps then diffOf tplCat (classifyAlways proj tplCat) fw.templates else {}
  let d2 := if macCat ∈ comps then diffOf macCat (classifyAlways proj macCat) fw.macros else {}
  let d3 := if qpCat ∈ comps then diffOf qpCat (classifyPack proj) fw.question_packs else {}
  (d1.append d2).append d3

/-- Per-conflict resolution supplied by the caller. -/
inductive Resolution
  | keep_local
  | use_framework
  | skip
deriving DecidableEq

/-- The summary returned by `apply_updates`. -/
structure UpdateResult where
  success : Bool
  files_added : List LPath
  files_updated : List LPath
  files_skipped : List LPath
  errors : List LPath
deriving DecidableEq

/-- Write canonical content to the project path and, for the
checksum-guarded category, refresh the registry entry to the new
framework digest. -/
def writeManagedFile (p : Project) (fc : FileChange) : Project :=
  let p1 : Project := { p with files := aupsert fc.path fc.content p.files }
  if fc.path.head? = some qpCat then
    { p1 with config :=
        { p1.config with
            checksums := aupsert fc.path (compute_file_checksum fc.content) p1.config.checksums } }
  else p1

/-- The running state of one best-effort write batch: current project
tree, paths written so far, paths whose write raised. -/
structure WriteOut where
  proj : Project
  ok : List LPath
  bad : List LPath
deriving DecidableEq

/-- Attempt one managed-file write: an I/O failure (modelled by the
`failures` fault set) is collected and does not abort the batch. -/
def writeStep (failures : List LPath) (st : WriteOut) (fc : FileChange) : WriteOut :=
  if fc.path ∈ failures then { st with bad := st.bad ++ [fc.path] }
  else { st with proj := writeManagedFile st.proj fc, ok := st.ok ++ [fc.path] }

/-- The running state of conflict resolution: project tree, conflicts
written via `use_framework`, conflicts skipped, failed writes. -/
structure ResolveOut where
  proj : Project
  written : List LPath
  skipped : List LPath
  bad : List LPath
deriving DecidableEq

/-- Process one conflict: resolve by the caller's resolution for its path,
defaulting to skip; `use_framework` behaves like a normal update,
`keep_local`/`skip` leave everything untouched and are recorded as
skipped. -/
def resolveStep (resolutions : List (LPath × Resolution)) (failures : List LPath)
    (st : ResolveOut) (c : Conflict) : ResolveOut :=
  match (alookup c.file_path resolutions).getD .skip with
  | .use_framework =>
    if c.file_path ∈ failures then { st with bad := st.bad ++ [c.file_path] }
    else
      { st with proj := writeManagedFile st.proj ⟨c.file_path, c.framework_content⟩
              , written := st.written ++ [c.file_path] }
  | _ => { st with skipped := st.skipped ++ [c.file_path] }

/-- `ldf.update.apply_updates`: compute the diff, perform the writes
(best-effort, non-transactional; `failures` is the set of paths whose
write raises an I/O error), resolve conflicts, and on success of all
writes stamp the config with the installed version and the update
timestamp `now`.  Returns the resulting project tree and the result
summary. -/
def apply_updates (fw : Framework) (proj : Project) (components : Option (List String))
    (resolutions : List (LPath × Resolution)) (dry_run : Bool)
    (failures : List LPath) (now : String) : Project × UpdateResult :=
  let d := get_update_diff fw proj components
  if dry_run then
    (proj, { success := true
           , files_added := d.files_to_add.map (·.path)
           , files_updated := d.files_to_update.map (·.path)
           , files_skipped := d.conflicts.map (·.file_path)
           , errors := [] })
  else
    let w1 := d.files_to_add.foldl (writeStep failures) ⟨proj, [], []⟩
    let w2 := d.files_to_update.foldl (writeStep failures) ⟨w1.proj, [], []⟩
    let r3 := d.conflicts.foldl (resolveStep resolutions failures) ⟨w2.proj, [], [], []⟩
    let errs := w1.bad ++ w2.bad ++ r3.bad
    let finalProj :=
      if errs.isEmpty then
        { r3.proj with config :=
            { r3.proj.config with
                framework_version := some fw.version
              , framework_updated := some now } }
      else r3.proj
    (finalProj, { success := errs.isEmpty
                , files_added := w1.ok
                , files_updated := w2.ok ++ r3.written
                , files_skipped := r3.skipped
                , errors := errs })

/-- The project tree after the three write/resolve passes of
`apply_updates` (before the final version stamp): the filesystem part of
a non-dry-run apply. -/
def applyCore (fw : Framework) (proj : Project) (components : Option (List String))
    (resolutions : List (LPath × Resolution)) (failures : List LPath) : Project :=
  let d := get_update_diff fw proj components
  let w1 := d.files_to_add.foldl (writeStep failures) ⟨proj, [], []⟩
  let w2 := d.files_to_update.foldl (writeStep failures) ⟨w1.proj, [], []⟩
  (d.conflicts.foldl (resolveStep resolutions failures) ⟨w2.proj, [], [], []⟩).proj

/-- The version-comparison summary of `ldf.update.check_for_updates`. -/
structure UpdateInfo where
  current_version : String
  latest_version : String
  has_updates : Bool
  updatable_components : List String
deriving DecidableEq

def zeroVersion : String := "0.0.0"

/-- `ldf.update.check_for_updates(project_root)`: `none` stands for a
project without a `.ldf` directory, which yields the empty/default
answer; otherwise the recorded version (defaulting to `0.0.0` for
configs that pre-date version tracking) is compared with the installed
framework version. -/
def check_for_updates (fw : Framework) (proj : Option Project) : UpdateInfo :=
  match proj with
  | none => ⟨zeroVersion, fw.version, false, []⟩
  | some p =>
    let cv := p.config.framework_version.getD zeroVersion
    ⟨cv, fw.version, decide (cv ≠ fw.version), allComponents⟩

end Ldf
namespace Ldf

/-! ## State Classifier (`ldf/detection.py`)

Modelled from the spec: section 4.2's ordered algorithm, with the required
file/directory set taken from `tests/test_detection.py`.  YAML parsing is
external (`yaml.safe_load`); a YAML file node carries its parse outcome. -/

/-- The parse outcome of a YAML file: `yaml.safe_load` returns `None` for
an empty document, raises for malformed input, or returns a value that may
or may not be a mapping. -/
inductive YamlDoc
  | emptyDoc
  | badDoc
  | scalarDoc
  | mappingDoc (kvs : List (String × String))
deriving DecidableEq

/-- An entry of the `.ldf` directory: a file with its parse outcome, or a
subdirectory with the names of the files it contains. -/
inductive LdfEntry
  | fileE (doc : YamlDoc)
  | dirE (children : List String)
deriving DecidableEq

/-- The `.ldf` directory listing. -/
structure LdfDir where
  entries : List (String × LdfEntry) := []
deriving DecidableEq

/-- What exists at `<root>/.ldf`. -/
inductive LdfNode
  | absent
  | plainFile
  | directory (d : LdfDir)
deriving DecidableEq

/-- The six lifecycle states; `incomplete` models the source's `PARTIAL`
state (the word itself is a Lean keyword). -/
inductive ProjectState
  | new
  | current
  | outdated
  | legacy
  | incomplete
  | corrupted
deriving DecidableEq

/-- The classifier's structured answer (the fields the core properties
are about). -/
structure DetectionResult where
  state : ProjectState
  project_version : Option String
  missing_files : List String
  invalid_files : List String
  recommended_command : Option String
deriving DecidableEq

def cfgName : String := "config.yaml"

def grdName : String := "guardrails.yaml"

def fwVersionKey : String := "framework_version"

def cmdInit : String := "ldf init"

def cmdForce : String := "ldf init --force"

def cmdRepair : String := "ldf repair"

def cmdUpdate : String := "ldf update"

def ldfNotDirMsg : String := ".ldf (not a directory)"

def slash : String := "/"

def spaceNotDir : String := " (not a directory)"

def requiredDirNames : List String := [specsDir, answerpacksDir, tplCat, qpCat]

def requiredTemplateFiles : List String := ["requirements.md", "design.md", "tasks.md"]

def requiredMacroFiles : List String := ["clarify-first.md", "coverage-gate.md", "task-guardrails.md"]

/-- The file names inside a subdirectory of `.ldf` (empty if the entry is
absent or is a plain file). -/
def childrenOf (d : LdfDir) (name : String) : List String :=
  match alookup name d.entries with
  | some (.dirE cs) => cs
  | _ => []

/-- `ldf.detection.check_ldf_completeness`: the structural completeness
walk; returns `(missing_files, invalid_files)`. -/
def check_ldf_completeness (d : LdfDir) : List String × List String :=
  let missingCfg := if (alookup cfgName d.entries).isNone then [cfgName] else []
  let missingGrd := if (alookup grdName d.entries).isNone then [grdName] else []
  let dirMissing := requiredDirNames.filterMap fun name =>
    if (alookup name d.entries).isNone then some (name ++ slash) else none
  let dirInvalid := requiredDirNames.filterMap fun name =>
    match alookup name d.entries with
    | some (.fileE _) => some (name ++ spaceNotDir)
    | _ => none
  let tplMissing := requiredTemplateFiles.filterMap fun t =>
    if t ∈ childrenOf d tplCat then none else some (tplCat ++ slash ++ t)
  let macMissing := requiredMacroFiles.filterMap fun m =>
    if m ∈ childrenOf d macCat then none else some (macCat ++ slash ++ m)
  let qpMissing := if (childrenOf d qpCat).isEmpty then [qpCat ++ slash] else []
  (missingCfg ++ missingGrd ++ dirMissing ++ tplMissing ++ macMissing ++ qpMissing,
   dirInvalid)

def emptySuffix : String := " (empty)"

def parseErrorSuffix : String := " (YAML parse error)"

def notMappingSuffix : String := " (not a mapping)"

/-- The invalidity diagnostics of one YAML config file: empty, parse
error, or not a mapping. -/
def yamlInvalid (d : LdfDir) (name : String) : List String :=
  match alookup name d.entries with
  | some (.fileE .emptyDoc) => [name ++ emptySuffix]
  | some (.fileE .badDoc) => [name ++ parseErrorSuffix]
  | some (.fileE .scalarDoc) => [name ++ notMappingSuffix]
  | _ => []

/-- The project-recorded framework version, read from the parsed
`config.yaml` mapping. -/
def configVersion (d : LdfDir) : Option String :=
  match alookup cfgName d.entries with
  | some (.fileE (.mappingDoc kvs)) => alookup fwVersionKey kvs
  | _ => none

/-- `ldf.detection.detect_project_state`: the ordered, first-match-wins
classification of spec section 4.2, as a pure function of the filesystem
snapshot and the installed framework version. -/
def detect_project_state (installed : String) (ldf : LdfNode) : DetectionResult :=
  match ldf with
  | .absent => ⟨.new, none, [], [], some cmdInit⟩
  | .plainFile => ⟨.corrupted, none, [], [ldfNotDirMsg], some cmdForce⟩
  | .directory d =>
    let mi := check_ldf_completeness d
    let invalid := yamlInvalid d cfgName ++ yamlInvalid d grdName ++ mi.2
    let missing := mi.1
    if invalid.isEmpty then
      if missing.isEmpty then
        match configVersion d with
        | none => ⟨.legacy, none, missing, invalid, some cmdUpdate⟩
        | some v =>
          if v = installed then ⟨.current, some v, missing, invalid, none⟩
          else ⟨.outdated, some v, missing, invalid, some cmdUpdate⟩
      else ⟨.incomplete, configVersion d, missing, invalid, some cmdRepair⟩
    else ⟨.corrupted, configVersion d, missing, invalid, some cmdForce⟩

end Ldf
namespace Ldf

/-! ## Characterization helpers

Closed forms for the accumulator components of the apply folds, used to
state the result summary as a function of the diff alone. -/

/-- The paths of a write batch whose write succeeds. -/
def okPaths (failures : List LPath) : List FileChange → List LPath
  | [] => []
  | fc :: r =>
    if fc.path ∈ failures then okPaths failures r else fc.path :: okPaths failures r

/-- The paths of a write batch whose write raises. -/
def badPaths (failures : List LPath) : List FileChange → List LPath
  | [] => []
  | fc :: r =>
    if fc.path ∈ failures then fc.path :: badPaths failures r else badPaths failures r

/-- The resolution applied to a conflict: the caller's, defaulting to
skip. -/
def resolvedAs (resolutions : List (LPath × Resolution)) (c : Conflict) : Resolution :=
  (alookup c.file_path resolutions).getD .skip

/-- The conflict paths written via `use_framework` whose write succeeds. -/
def confWritten (resolutions : List (LPath × Resolution)) (failures : List LPath) :
    List Conflict → List LPath
  | [] => []
  | c :: r =>
    if resolvedAs resolutions c = .use_framework then
      if c.file_path ∈ failures then confWritten resolutions failures r
      else c.file_path :: confWritten resolutions failures r
    else confWritten resolutions failures r

/-- The conflict paths resolved to `keep_local` or `skip`. -/
def confSkipped (resolutions : List (LPath × Resolution)) : List Conflict → List LPath
  | [] => []
  | c :: r =>
    if resolvedAs resolutions c = .use_framework then confSkipped resolutions r
    else c.file_path :: confSkipped resolutions r

/-- The conflict paths written via `use_framework` whose write raises. -/
def confBad (resolutions : List (LPath × Resolution)) (failures : List LPath) :
    List Conflict → List LPath
  | [] => []
  | c :: r =>
    if resolvedAs resolutions c = .use_framework then
      if c.file_path ∈ failures then c.file_path :: confBad resolutions failures r
      else confBad resolutions failures r
    else confBad resolutions failures r

/-! ## Concrete fixtures

Small concrete frameworks, projects and filesystem snapshots used to
instantiate the general theorems and to exhibit counterexamples. -/

def byteA : Content := [97]

def byteB : Content := [98]

def reqMdName : String := "requirements.md"

def secYaml : String := "security.yaml"

def verNew : String := "0.2.0"

def nowStamp : String := "2026-01-01T00:00:00"

/-- A framework carrying a single canonical template. -/
def fwTpl : Framework := { version := verNew, templates := [(reqMdName, byteA)] }

/-- A project whose copy of that template is byte-identical to the
canonical content. -/
def projTplSame : Project := { files := [([tplCat, reqMdName], byteA)] }

/-- A framework carrying a single canonical question pack. -/
def fwPack : Framework := { version := verNew, question_packs := [(secYaml, byteA)] }

/-- A project whose copy of that question pack was edited by the user
while the framework canonical content is unchanged from the registry
basis: the registry entry equals the canonical digest and differs from
the project copy's digest. -/
def projPackEdited : Project :=
  { files := [([qpCat, secYaml], byteB)]
  , config := { checksums := [([qpCat, secYaml], compute_file_checksum byteA)] } }

/-- A project with no files and an empty config. -/
def projEmpty : Project := {}

/-- A project holding only a user spec file. -/
def projSpec : Project := { files := [([specsDir, reqMdName], byteB)] }

/-- A `.ldf` directory whose `config.yaml` fails to parse (and in which
everything else is missing as well). -/
def ldfDirBadConfig : LdfDir := ⟨[(cfgName, .fileE .badDoc)]⟩

end Ldf
namespace Ldf

/-! ## Lemmas: association lists -/

theorem alookup_aupsert_self {α β : Type} [DecidableEq α] (k : α) (v : β)
    (l : List (α × β)) : alookup k (aupsert k v l) = some v := by
  induction l with
  | nil => simp [alookup, aupsert]
  | cons e rest ih =>
    by_cases h : e.1 = k
    · simp [alookup, aupsert, h]
    · simp [alookup, aupsert, h, ih]

theorem alookup_aupsert_ne {α β : Type} [DecidableEq α] {k k2 : α} (v : β)
    (l : List (α × β)) (h : k ≠ k2) :
    alookup k2 (aupsert k v l) = alookup k2 l := by
  induction l with
  | nil => simp [alookup, aupsert, h]
  | cons e rest ih =>
    by_cases he : e.1 = k
    · simp [alookup, aupsert, he, h]
    · by_cases he2 : e.1 = k2 <;> simp [alookup, aupsert, he, he2, Ne.symm h, ih]

/-! ## Lemmas: chunking -/

theorem chunkedFuel_join (n : Nat) :
    ∀ (fuel : Nat) (l : List Nat), l.length ≤ fuel → (chunkedFuel (n + 1) fuel l).flatten = l := by
  intro fuel
  induction fuel with
  | zero =>
    intro l h
    have : l = [] := List.eq_nil_of_length_eq_zero (Nat.le_zero.mp h)
    subst this
    simp [chunkedFuel]
  | succ m ih =>
    intro l h
    cases l with
    | nil => simp [chunkedFuel]
    | cons a t =>
      rw [chunkedFuel]
      have hle : (t.drop n).length ≤ m := by
        simp only [List.length_cons] at h
        simp only [List.length_drop]
        omega
      have h2 := ih (t.drop n) hle
      have h3 : (a :: t).take (n + 1) = a :: t.take n := rfl
      rw [List.flatten_cons, h2, h3, List.cons_append, List.take_append_drop]

theorem chunked_join (n : Nat) (l : List Nat) : (chunked (n + 1) l).flatten = l :=
  chunkedFuel_join n l.length l (Nat.le_refl _)

/-- Folding `update` over a chunk list accumulates exactly the
concatenation of the chunks. -/
theorem foldl_push_fed (chunks : List (List Nat)) (s : HashlibSha256) :
    (chunks.foldl HashlibSha256.push s).fed = s.fed ++ chunks.flatten := by
  induction chunks generalizing s with
  | nil => simp
  | cons c rest ih => simp [HashlibSha256.push, ih, List.append_assoc]

end Ldf
namespace Ldf

/-! ## Lemmas: per-category diff membership -/

theorem diffOf_add_spec (cat : String) (cls : (String × Content) → FileClass)
    (entries : List (String × Content)) (fc : FileChange) :
    fc ∈ (diffOf cat cls entries).files_to_add ↔
      ∃ e ∈ entries, cls e = .toAdd ∧ fc = ⟨[cat, e.1], e.2⟩ := by
  simp only [diffOf, List.mem_filterMap]
  constructor
  · rintro ⟨e, he, hm⟩
    refine ⟨e, he, ?_, ?_⟩ <;> cases hcls : cls e <;> rw [hcls] at hm <;> simp_all
  · rintro ⟨e, he, hcls, rfl⟩
    exact ⟨e, he, by rw [hcls]⟩

theorem diffOf_upd_spec (cat : String) (cls : (String × Content) → FileClass)
    (entries : List (String × Content)) (fc : FileChange) :
    fc ∈ (diffOf cat cls entries).files_to_update ↔
      ∃ e ∈ entries, cls e = .toUpdate ∧ fc = ⟨[cat, e.1], e.2⟩ := by
  simp only [diffOf, List.mem_filterMap]
  constructor
  · rintro ⟨e, he, hm⟩
    refine ⟨e, he, ?_, ?_⟩ <;> cases hcls : cls e <;> rw [hcls] at hm <;> simp_all
  · rintro ⟨e, he, hcls, rfl⟩
    exact ⟨e, he, by rw [hcls]⟩

theorem diffOf_unch_spec (cat : String) (cls : (String × Content) → FileClass)
    (entries : List (String × Content)) (q : LPath) :
    q ∈ (diffOf cat cls entries).files_unchanged ↔
      ∃ e ∈ entries, cls e = .unchanged ∧ q = [cat, e.1] := by
  simp only [diffOf, List.mem_filterMap]
  constructor
  · rintro ⟨e, he, hm⟩
    refine ⟨e, he, ?_, ?_⟩ <;> cases hcls : cls e <;> rw [hcls] at hm <;> simp_all
  · rintro ⟨e, he, hcls, rfl⟩
    exact ⟨e, he, by rw [hcls]⟩

theorem diffOf_conf_spec (cat : String) (cls : (String × Content) → FileClass)
    (entries : List (String × Content)) (c : Conflict) :
    c ∈ (diffOf cat cls entries).conflicts ↔
      ∃ e ∈ entries, ∃ lc st, cls e = .conflicting lc st ∧ c = ⟨[cat, e.1], lc, e.2, st⟩ := by
  simp only [diffOf, List.mem_filterMap]
  constructor
  · rintro ⟨e, he, hm⟩
    cases hcls : cls e with
    | conflicting lc st =>
      simp only [hcls, Option.some.injEq] at hm
      exact ⟨e, he, lc, st, hcls, hm.symm⟩
    | toAdd => simp [hcls] at hm
    | unchanged => simp [hcls] at hm
    | toUpdate => simp [hcls] at hm
  · rintro ⟨e, he, lc, st, hcls, rfl⟩
    exact ⟨e, he, by rw [hcls]⟩

/-- The always-overwrite policy never yields a conflict. -/
theorem classifyAlways_ne_conflicting (proj : Project) (cat : String)
    (e : String × Content) (lc : Content) (st : String) :
    classifyAlways proj cat e ≠ .conflicting lc st := by
  unfold classifyAlways
  cases h : lookupFile proj [cat, e.1] with
  | none => simp
  | some c =>
    by_cases hd : compute_file_checksum c = compute_file_checksum e.2 <;> simp [hd]

theorem diffOf_always_conflicts (proj : Project) (cat : String)
    (entries : List (String × Content)) :
    (diffOf cat (classifyAlways proj cat) entries).conflicts = [] := by
  rcases h : (diffOf cat (classifyAlways proj cat) entries).conflicts with _ | ⟨c, r⟩
  · rfl
  · have : c ∈ (diffOf cat (classifyAlways proj cat) entries).conflicts := by
      rw [h]; exact List.mem_cons_self c r
    rw [diffOf_conf_spec] at this
    obtain ⟨e, _, lc, st, hcls, _⟩ := this
    exact absurd hcls (classifyAlways_ne_conflicting proj cat e lc st)

end Ldf
namespace Ldf

/-! ## Lemmas: classification case analysis -/

theorem classifyAlways_of_none {proj : Project} {cat : String} {e : String × Content}
    (h : lookupFile proj [cat, e.1] = none) : classifyAlways proj cat e = .toAdd := by
  unfold classifyAlways
  rw [h]

theorem classifyAlways_of_same {proj : Project} {cat : String} {e : String × Content}
    {c : Content} (h : lookupFile proj [cat, e.1] = some c)
    (hd : compute_file_checksum c = compute_file_checksum e.2) :
    classifyAlways proj cat e = .unchanged := by
  unfold classifyAlways
  rw [h]
  simp [hd]

theorem classifyAlways_of_diff {proj : Project} {cat : String} {e : String × Content}
    {c : Content} (h : lookupFile proj [cat, e.1] = some c)
    (hd : compute_file_checksum c ≠ compute_file_checksum e.2) :
    classifyAlways proj cat e = .toUpdate := by
  unfold classifyAlways
  rw [h]
  simp [hd]

theorem classifyAlways_unchanged_inv {proj : Project} {cat : String} {e : String × Content}
    (h : classifyAlways proj cat e = .unchanged) :
    ∃ c, lookupFile proj [cat, e.1] = some c ∧
      compute_file_checksum c = compute_file_checksum e.2 := by
  unfold classifyAlways at h
  cases hl : lookupFile proj [cat, e.1] with
  | none => rw [hl] at h; simp at h
  | some c =>
    rw [hl] at h
    by_cases hd : compute_file_checksum c = compute_file_checksum e.2
    · exact ⟨c, rfl, hd⟩
    · simp [hd] at h

theorem classifyPack_of_none {proj : Project} {e : String × Content}
    (h : lookupFile proj [qpCat, e.1] = none) : classifyPack proj e = .toAdd := by
  unfold classifyPack
  rw [h]

theorem classifyPack_of_same {proj : Project} {e : String × Content} {c : Content}
    (h : lookupFile proj [qpCat, e.1] = some c)
    (hd : compute_file_checksum c = compute_file_checksum e.2) :
    classifyPack proj e = .unchanged := by
  unfold classifyPack
  rw [h]
  simp [hd]

theorem classifyPack_of_upd_none {proj : Project} {e : String × Content} {c : Content}
    (h : lookupFile proj [qpCat, e.1] = some c)
    (hd : compute_file_checksum c ≠ compute_file_checksum e.2)
    (hr : registryLookup proj [qpCat, e.1] = none) :
    classifyPack proj e = .toUpdate := by
  unfold classifyPack
  rw [h]
  simp [hd, hr]

theorem classifyPack_of_upd_match {proj : Project} {e : String × Content} {c : Content}
    (h : lookupFile proj [qpCat, e.1] = some c)
    (hd : compute_file_checksum c ≠ compute_file_checksum e.2)
    (hr : registryLookup proj [qpCat, e.1] = some (compute_file_checksum c)) :
    classifyPack proj e = .toUpdate := by
  unfold classifyPack
  rw [h]
  simp [hd, hr]

theorem classifyPack_of_conflict {proj : Project} {e : String × Content} {c : Content}
    {r : String} (h : lookupFile proj [qpCat, e.1] = some c)
    (hd : compute_file_checksum c ≠ compute_file_checksum e.2)
    (hr : registryLookup proj [qpCat, e.1] = some r)
    (hne : r ≠ compute_file_checksum c) :
    classifyPack proj e = .conflicting c r := by
  unfold classifyPack
  rw [h]
  simp [hd, hr, hne]

theorem classifyPack_unchanged_inv {proj : Project} {e : String × Content}
    (h : classifyPack proj e = .unchanged) :
    ∃ c, lookupFile proj [qpCat, e.1] = some c ∧
      compute_file_checksum c = compute_file_checksum e.2 := by
  cases hl : lookupFile proj [qpCat, e.1] with
  | none => rw [classifyPack_of_none hl] at h; simp at h
  | some c =>
    by_cases hd : compute_file_checksum c = compute_file_checksum e.2
    · exact ⟨c, rfl, hd⟩
    · cases hr : registryLookup proj [qpCat, e.1] with
      | none => rw [classifyPack_of_upd_none hl hd hr] at h; simp at h
      | some r =>
        by_cases hm : r = compute_file_checksum c
        · subst hm
          rw [classifyPack_of_upd_match hl hd hr] at h
          simp at h
        · rw [classifyPack_of_conflict hl hd hr hm] at h
          simp at h

end Ldf
namespace Ldf

/-! ## Lemmas: path discipline of the diff -/

theorem nodup_keys_inj {β : Type} [DecidableEq β] {entries : List (String × β)}
    (hnd : (entries.map Prod.fst).Nodup) {e e2 : String × β}
    (he : e ∈ entries) (he2 : e2 ∈ entries) (heq : e.1 = e2.1) : e = e2 := by
  induction entries with
  | nil => cases he
  | cons a t ih =>
    simp only [List.map_cons, List.nodup_cons] at hnd
    rcases List.mem_cons.mp he with h1 | h1
    · rcases List.mem_cons.mp he2 with h2 | h2
      · rw [h1, h2]
      · exfalso
        apply hnd.1
        rw [← h1, heq]
        exact List.mem_map_of_mem Prod.fst h2
    · rcases List.mem_cons.mp he2 with h2 | h2
      · exfalso
        apply hnd.1
        rw [← h2, ← heq]
        exact List.mem_map_of_mem Prod.fst h1
      · exact ih hnd.2 h1 h2

theorem filterMap_map_sublist {α β γ : Type} (f : α → Option β) (pr : β → γ) (g : α → γ)
    (h : ∀ a b, f a = some b → pr b = g a) (l : List α) :
    ((l.filterMap f).map pr).Sublist (l.map g) := by
  induction l with
  | nil => simp
  | cons a t ih =>
    cases hf : f a with
    | none => simp only [List.filterMap_cons, hf, List.map_cons]; exact ih.cons (g a)
    | some b =>
      simp only [List.filterMap_cons, hf, List.map_cons, h a b hf]
      exact ih.cons₂ (g a)

theorem entry_paths_nodup {β : Type} (cat : String) {entries : List (String × β)}
    (hnd : (entries.map Prod.fst).Nodup) :
    (entries.map fun e => [cat, e.1]).Nodup := by
  have : (entries.map fun e => [cat, e.1])
      = (entries.map Prod.fst).map (fun n => [cat, n]) := by
    rw [List.map_map]
    rfl
  rw [this]
  refine hnd.map ?_
  intro a b hab
  simpa using hab

theorem diffOf_add_paths_sublist (cat : String) (cls : (String × Content) → FileClass)
    (entries : List (String × Content)) :
    ((diffOf cat cls entries).files_to_add.map FileChange.path).Sublist
      (entries.map fun e => [cat, e.1]) := by
  refine filterMap_map_sublist _ _ _ ?_ entries
  intro e fc hm
  cases hcls : cls e <;> simp [hcls] at hm <;> simp [← hm]

theorem diffOf_upd_paths_sublist (cat : String) (cls : (String × Content) → FileClass)
    (entries : List (String × Content)) :
    ((diffOf cat cls entries).files_to_update.map FileChange.path).Sublist
      (entries.map fun e => [cat, e.1]) := by
  refine filterMap_map_sublist _ _ _ ?_ entries
  intro e fc hm
  cases hcls : cls e <;> simp [hcls] at hm <;> simp [← hm]

theorem diffOf_conf_paths_sublist (cat : String) (cls : (String × Content) → FileClass)
    (entries : List (String × Content)) :
    ((diffOf cat cls entries).conflicts.map Conflict.file_path).Sublist
      (entries.map fun e => [cat, e.1]) := by
  refine filterMap_map_sublist _ _ _ ?_ entries
  intro e c hm
  cases hcls : cls e <;> simp [hcls] at hm <;> simp [← hm]

theorem diffOf_add_paths_nodup (cat : String) (cls : (String × Content) → FileClass)
    {entries : List (String × Content)} (hnd : (entries.map Prod.fst).Nodup) :
    ((diffOf cat cls entries).files_to_add.map FileChange.path).Nodup :=
  (entry_paths_nodup cat hnd).sublist (diffOf_add_paths_sublist cat cls entries)

theorem diffOf_upd_paths_nodup (cat : String) (cls : (String × Content) → FileClass)
    {entries : List (String × Content)} (hnd : (entries.map Prod.fst).Nodup) :
    ((diffOf cat cls entries).files_to_update.map FileChange.path).Nodup :=
  (entry_paths_nodup cat hnd).sublist (diffOf_upd_paths_sublist cat cls entries)

theorem diffOf_conf_paths_nodup (cat : String) (cls : (String × Content) → FileClass)
    {entries : List (String × Content)} (hnd : (entries.map Prod.fst).Nodup) :
    ((diffOf cat cls entries).conflicts.map Conflict.file_path).Nodup :=
  (entry_paths_nodup cat hnd).sublist (diffOf_conf_paths_sublist cat cls entries)

/-- Every path the per-category diff mentions starts with the category. -/
theorem diffOf_add_head {cat : String} {cls : (String × Content) → FileClass}
    {entries : List (String × Content)} {fc : FileChange}
    (h : fc ∈ (diffOf cat cls entries).files_to_add) : fc.path.head? = some cat := by
  obtain ⟨e, _, _, rfl⟩ := (diffOf_add_spec cat cls entries fc).mp h
  rfl

theorem diffOf_upd_head {cat : String} {cls : (String × Content) → FileClass}
    {entries : List (String × Content)} {fc : FileChange}
    (h : fc ∈ (diffOf cat cls entries).files_to_update) : fc.path.head? = some cat := by
  obtain ⟨e, _, _, rfl⟩ := (diffOf_upd_spec cat cls entries fc).mp h
  rfl

theorem diffOf_conf_head {cat : String} {cls : (String × Content) → FileClass}
    {entries : List (String × Content)} {c : Conflict}
    (h : c ∈ (diffOf cat cls entries).conflicts) : c.file_path.head? = some cat := by
  obtain ⟨e, _, lc, st, _, rfl⟩ := (diffOf_conf_spec cat cls entries c).mp h
  rfl

end Ldf
namespace Ldf

/-! ## Lemmas: decomposition of the full diff into category parts -/

theorem diff_add_eq (fw : Framework) (proj : Project) (comps : Option (List String)) :
    (get_update_diff fw proj comps).files_to_add =
      (if tplCat ∈ comps.getD allComponents then
        (diffOf tplCat (classifyAlways proj tplCat) fw.templates).files_to_add else []) ++
      (if macCat ∈ comps.getD allComponents then
        (diffOf macCat (classifyAlways proj macCat) fw.macros).files_to_add else []) ++
      (if qpCat ∈ comps.getD allComponents then
        (diffOf qpCat (classifyPack proj) fw.question_packs).files_to_add else []) := by
  simp only [get_update_diff, UpdateDiff.append, apply_ite UpdateDiff.files_to_add]

theorem diff_upd_eq (fw : Framework) (proj : Project) (comps : Option (List String)) :
    (get_update_diff fw proj comps).files_to_update =
      (if tplCat ∈ comps.getD allComponents then
        (diffOf tplCat (classifyAlways proj tplCat) fw.templates).files_to_update else []) ++
      (if macCat ∈ comps.getD allComponents then
        (diffOf macCat (classifyAlways proj macCat) fw.macros).files_to_update else []) ++
      (if qpCat ∈ comps.getD allComponents then
        (diffOf qpCat (classifyPack proj) fw.question_packs).files_to_update else []) := by
  simp only [get_update_diff, UpdateDiff.append, apply_ite UpdateDiff.files_to_update]

theorem diff_unch_eq (fw : Framework) (proj : Project) (comps : Option (List String)) :
    (get_update_diff fw proj comps).files_unchanged =
      (if tplCat ∈ comps.getD allComponents then
        (diffOf tplCat (classifyAlways proj tplCat) fw.templates).files_unchanged else []) ++
      (if macCat ∈ comps.getD allComponents then
        (diffOf macCat (classifyAlways proj macCat) fw.macros).files_unchanged else []) ++
      (if qpCat ∈ comps.getD allComponents then
        (diffOf qpCat (classifyPack proj) fw.question_packs).files_unchanged else []) := by
  simp only [get_update_diff, UpdateDiff.append, apply_ite UpdateDiff.files_unchanged]

theorem diff_conf_eq (fw : Framework) (proj : Project) (comps : Option (List String)) :
    (get_update_diff fw proj comps).conflicts =
      (if tplCat ∈ comps.getD allComponents then
        (diffOf tplCat (classifyAlways proj tplCat) fw.templates).conflicts else []) ++
      (if macCat ∈ comps.getD allComponents then
        (diffOf macCat (classifyAlways proj macCat) fw.macros).conflicts else []) ++
      (if qpCat ∈ comps.getD allComponents then
        (diffOf qpCat (classifyPack proj) fw.question_packs).conflicts else []) := by
  simp only [get_update_diff, UpdateDiff.append, apply_ite UpdateDiff.conflicts]

/-- Every conflict of the full diff comes from the question-pack scan. -/
theorem diff_conf_from_packs {fw : Framework} {proj : Project} {comps : Option (List String)}
    {c : Conflict} (h : c ∈ (get_update_diff fw proj comps).conflicts) :
    qpCat ∈ comps.getD allComponents ∧
      c ∈ (diffOf qpCat (classifyPack proj) fw.question_packs).conflicts := by
  rw [diff_conf_eq] at h
  rcases List.mem_append.mp h with h | h
  · rcases List.mem_append.mp h with h | h
    · by_cases hp : tplCat ∈ comps.getD allComponents
      · rw [if_pos hp, diffOf_always_conflicts] at h; cases h
      · rw [if_neg hp] at h; cases h
    · by_cases hp : macCat ∈ comps.getD allComponents
      · rw [if_pos hp, diffOf_always_conflicts] at h; cases h
      · rw [if_neg hp] at h; cases h
  · by_cases hp : qpCat ∈ comps.getD allComponents
    · rw [if_pos hp] at h; exact ⟨hp, h⟩
    · rw [if_neg hp] at h; cases h

theorem diff_add_cases {fw : Framework} {proj : Project} {comps : Option (List String)}
    {fc : FileChange} (h : fc ∈ (get_update_diff fw proj comps).files_to_add) :
    fc ∈ (diffOf tplCat (classifyAlways proj tplCat) fw.templates).files_to_add ∨
    fc ∈ (diffOf macCat (classifyAlways proj macCat) fw.macros).files_to_add ∨
    fc ∈ (diffOf qpCat (classifyPack proj) fw.question_packs).files_to_add := by
  rw [diff_add_eq] at h
  rcases List.mem_append.mp h with h | h
  · rcases List.mem_append.mp h with h | h
    · rcases Decidable.em (tplCat ∈ comps.getD allComponents) with hp | hp
      · rw [if_pos hp] at h; exact Or.inl h
      · rw [if_neg hp] at h; cases h
    · rcases Decidable.em (macCat ∈ comps.getD allComponents) with hp | hp
      · rw [if_pos hp] at h; exact Or.inr (Or.inl h)
      · rw [if_neg hp] at h; cases h
  · rcases Decidable.em (qpCat ∈ comps.getD allComponents) with hp | hp
    · rw [if_pos hp] at h; exact Or.inr (Or.inr h)
    · rw [if_neg hp] at h; cases h

theorem diff_upd_cases {fw : Framework} {proj : Project} {comps : Option (List String)}
    {fc : FileChange} (h : fc ∈ (get_update_diff fw proj comps).files_to_update) :
    fc ∈ (diffOf tplCat (classifyAlways proj tplCat) fw.templates).files_to_update ∨
    fc ∈ (diffOf macCat (classifyAlways proj macCat) fw.macros).files_to_update ∨
    fc ∈ (diffOf qpCat (classifyPack proj) fw.question_packs).files_to_update := by
  rw [diff_upd_eq] at h
  rcases List.mem_append.mp h with h | h
  · rcases List.mem_append.mp h with h | h
    · rcases Decidable.em (tplCat ∈ comps.getD allComponents) with hp | hp
      · rw [if_pos hp] at h; exact Or.inl h
      · rw [if_neg hp] at h; cases h
    · rcases Decidable.em (macCat ∈ comps.getD allComponents) with hp | hp
      · rw [if_pos hp] at h; exact Or.inr (Or.inl h)
      · rw [if_neg hp] at h; cases h
  · rcases Decidable.em (qpCat ∈ comps.getD allComponents) with hp | hp
    · rw [if_pos hp] at h; exact Or.inr (Or.inr h)
    · rw [if_neg hp] at h; cases h

/-- Every path the diff wants to write begins with one of the three
managed category directories. -/
theorem diff_write_head {fw : Framework} {proj : Project} {comps : Option (List String)}
    {fc : FileChange}
    (h : fc ∈ (get_update_diff fw proj comps).files_to_add ∨
         fc ∈ (get_update_diff fw proj comps).files_to_update) :
    fc.path.head? = some tplCat ∨ fc.path.head? = some macCat ∨
      fc.path.head? = some qpCat := by
  rcases h with h | h
  · rcases diff_add_cases h with h | h | h
    · exact Or.inl (diffOf_add_head h)
    · exact Or.inr (Or.inl (diffOf_add_head h))
    · exact Or.inr (Or.inr (diffOf_add_head h))
  · rcases diff_upd_cases h with h | h | h
    · exact Or.inl (diffOf_upd_head h)
    · exact Or.inr (Or.inl (diffOf_upd_head h))
    · exact Or.inr (Or.inr (diffOf_upd_head h))

end Ldf
namespace Ldf

/-! ## Lemmas: category parts inject into the full diff -/

theorem mem_whole_add_tpl {fw : Framework} {proj : Project} {comps : Option (List String)}
    {fc : FileChange} (hc : tplCat ∈ comps.getD allComponents)
    (h : fc ∈ (diffOf tplCat (classifyAlways proj tplCat) fw.templates).files_to_add) :
    fc ∈ (get_update_diff fw proj comps).files_to_add := by
  rw [diff_add_eq]
  exact List.mem_append.mpr (Or.inl (List.mem_append.mpr (Or.inl (by rw [if_pos hc]; exact h))))

theorem mem_whole_upd_tpl {fw : Framework} {proj : Project} {comps : Option (List String)}
    {fc : FileChange} (hc : tplCat ∈ comps.getD allComponents)
    (h : fc ∈ (diffOf tplCat (classifyAlways proj tplCat) fw.templates).files_to_update) :
    fc ∈ (get_update_diff fw proj comps).files_to_update := by
  rw [diff_upd_eq]
  exact List.mem_append.mpr (Or.inl (List.mem_append.mpr (Or.inl (by rw [if_pos hc]; exact h))))

theorem mem_whole_unch_tpl {fw : Framework} {proj : Project} {comps : Option (List String)}
    {q : LPath} (hc : tplCat ∈ comps.getD allComponents)
    (h : q ∈ (diffOf tplCat (classifyAlways proj tplCat) fw.templates).files_unchanged) :
    q ∈ (get_update_diff fw proj comps).files_unchanged := by
  rw [diff_unch_eq]
  exact List.mem_append.mpr (Or.inl (List.mem_append.mpr (Or.inl (by rw [if_pos hc]; exact h))))

theorem mem_whole_add_mac {fw : Framework} {proj : Project} {comps : Option (List String)}
    {fc : FileChange} (hc : macCat ∈ comps.getD allComponents)
    (h : fc ∈ (diffOf macCat (classifyAlways proj macCat) fw.macros).files_to_add) :
    fc ∈ (get_update_diff fw proj comps).files_to_add := by
  rw [diff_add_eq]
  exact List.mem_append.mpr (Or.inl (List.mem_append.mpr (Or.inr (by rw [if_pos hc]; exact h))))

theorem mem_whole_upd_mac {fw : Framework} {proj : Project} {comps : Option (List String)}
    {fc : FileChange} (hc : macCat ∈ comps.getD allComponents)
    (h : fc ∈ (diffOf macCat (classifyAlways proj macCat) fw.macros).files_to_update) :
    fc ∈ (get_update_diff fw proj comps).files_to_update := by
  rw [diff_upd_eq]
  exact List.mem_append.mpr (Or.inl (List.mem_append.mpr (Or.inr (by rw [if_pos hc]; exact h))))

theorem mem_whole_unch_mac {fw : Framework} {proj : Project} {comps : Option (List String)}
    {q : LPath} (hc : macCat ∈ comps.getD allComponents)
    (h : q ∈ (diffOf macCat (classifyAlways proj macCat) fw.macros).files_unchanged) :
    q ∈ (get_update_diff fw proj comps).files_unchanged := by
  rw [diff_unch_eq]
  exact List.mem_append.mpr (Or.inl (List.mem_append.mpr (Or.inr (by rw [if_pos hc]; exact h))))

theorem mem_whole_add_qp {fw : Framework} {proj : Project} {comps : Option (List String)}
    {fc : FileChange} (hc : qpCat ∈ comps.getD allComponents)
    (h : fc ∈ (diffOf qpCat (classifyPack proj) fw.question_packs).files_to_add) :
    fc ∈ (get_update_diff fw proj comps).files_to_add := by
  rw [diff_add_eq]
  exact List.mem_append.mpr (Or.inr (by rw [if_pos hc]; exact h))

theorem mem_whole_upd_qp {fw : Framework} {proj : Project} {comps : Option (List String)}
    {fc : FileChange} (hc : qpCat ∈ comps.getD allComponents)
    (h : fc ∈ (diffOf qpCat (classifyPack proj) fw.question_packs).files_to_update) :
    fc ∈ (get_update_diff fw proj comps).files_to_update := by
  rw [diff_upd_eq]
  exact List.mem_append.mpr (Or.inr (by rw [if_pos hc]; exact h))

theorem mem_whole_unch_qp {fw : Framework} {proj : Project} {comps : Option (List String)}
    {q : LPath} (hc : qpCat ∈ comps.getD allComponents)
    (h : q ∈ (diffOf qpCat (classifyPack proj) fw.question_packs).files_unchanged) :
    q ∈ (get_update_diff fw proj comps).files_unchanged := by
  rw [diff_unch_eq]
  exact List.mem_append.mpr (Or.inr (by rw [if_pos hc]; exact h))

theorem mem_whole_conf_qp {fw : Framework} {proj : Project} {comps : Option (List String)}
    {c : Conflict} (hc : qpCat ∈ comps.getD allComponents)
    (h : c ∈ (diffOf qpCat (classifyPack proj) fw.question_packs).conflicts) :
    c ∈ (get_update_diff fw proj comps).conflicts := by
  rw [diff_conf_eq]
  exact List.mem_append.mpr (Or.inr (by rw [if_pos hc]; exact h))

/-! ## Lemmas: a path determines the classification (given distinct names) -/

theorem diffOf_add_path_class {cat : String} {cls : (String × Content) → FileClass}
    {entries : List (String × Content)} (hnd : (entries.map Prod.fst).Nodup)
    {fc : FileChange} (h : fc ∈ (diffOf cat cls entries).files_to_add)
    {e : String × Content} (he : e ∈ entries) (hp : fc.path = [cat, e.1]) :
    cls e = .toAdd := by
  obtain ⟨e2, he2, hcls, rfl⟩ := (diffOf_add_spec cat cls entries fc).mp h
  have h1 : e2.1 = e.1 := by
    have := hp
    simp at this
    exact this
  rw [nodup_keys_inj hnd he he2 h1.symm]
  exact hcls

theorem diffOf_upd_path_class {cat : String} {cls : (String × Content) → FileClass}
    {entries : List (String × Content)} (hnd : (entries.map Prod.fst).Nodup)
    {fc : FileChange} (h : fc ∈ (diffOf cat cls entries).files_to_update)
    {e : String × Content} (he : e ∈ entries) (hp : fc.path = [cat, e.1]) :
    cls e = .toUpdate := by
  obtain ⟨e2, he2, hcls, rfl⟩ := (diffOf_upd_spec cat cls entries fc).mp h
  have h1 : e2.1 = e.1 := by
    have := hp
    simp at this
    exact this
  rw [nodup_keys_inj hnd he he2 h1.symm]
  exact hcls

theorem diffOf_conf_path_class {cat : String} {cls : (String × Content) → FileClass}
    {entries : List (String × Content)} (hnd : (entries.map Prod.fst).Nodup)
    {c : Conflict} (h : c ∈ (diffOf cat cls entries).conflicts)
    {e : String × Content} (he : e ∈ entries) (hp : c.file_path = [cat, e.1]) :
    ∃ lc st, cls e = .conflicting lc st := by
  obtain ⟨e2, he2, lc, st, hcls, rfl⟩ := (diffOf_conf_spec cat cls entries c).mp h
  have h1 : e2.1 = e.1 := by
    have := hp
    simp at this
    exact this
  rw [nodup_keys_inj hnd he he2 h1.symm]
  exact ⟨lc, st, hcls⟩

end Ldf
namespace Ldf

/-! ## Lemmas: single managed-file writes -/

theorem writeManagedFile_lookup_self (p : Project) (fc : FileChange) :
    lookupFile (writeManagedFile p fc) fc.path = some fc.content := by
  unfold writeManagedFile lookupFile
  split <;> simp [alookup_aupsert_self]

theorem writeManagedFile_lookup_ne (p : Project) (fc : FileChange) {q : LPath}
    (h : q ≠ fc.path) :
    lookupFile (writeManagedFile p fc) q = lookupFile p q := by
  unfold writeManagedFile lookupFile
  split <;> simp [alookup_aupsert_ne _ _ (Ne.symm h)]

theorem writeManagedFile_registry_self (p : Project) (fc : FileChange)
    (h : fc.path.head? = some qpCat) :
    registryLookup (writeManagedFile p fc) fc.path =
      some (compute_file_checksum fc.content) := by
  unfold writeManagedFile registryLookup
  rw [if_pos h]
  simp [alookup_aupsert_self]

theorem writeManagedFile_registry_ne (p : Project) (fc : FileChange) {q : LPath}
    (h : q ≠ fc.path) :
    registryLookup (writeManagedFile p fc) q = registryLookup p q := by
  unfold writeManagedFile registryLookup
  split <;> simp [alookup_aupsert_ne _ _ (Ne.symm h)]

theorem writeManagedFile_version (p : Project) (fc : FileChange) :
    (writeManagedFile p fc).config.framework_version = p.config.framework_version := by
  unfold writeManagedFile
  split <;> rfl

theorem writeManagedFile_updated (p : Project) (fc : FileChange) :
    (writeManagedFile p fc).config.framework_updated = p.config.framework_updated := by
  unfold writeManagedFile
  split <;> rfl

/-! ## Lemmas: the write batch fold -/

theorem writeFold_ok (failures : List LPath) (entries : List FileChange) (st : WriteOut) :
    (entries.foldl (writeStep failures) st).ok = st.ok ++ okPaths failures entries := by
  induction entries generalizing st with
  | nil => simp [okPaths]
  | cons fc r ih =>
    by_cases hf : fc.path ∈ failures <;>
      simp [List.foldl_cons, writeStep, hf, okPaths, ih]

theorem writeFold_bad (failures : List LPath) (entries : List FileChange) (st : WriteOut) :
    (entries.foldl (writeStep failures) st).bad = st.bad ++ badPaths failures entries := by
  induction entries generalizing st with
  | nil => simp [badPaths]
  | cons fc r ih =>
    by_cases hf : fc.path ∈ failures <;>
      simp [List.foldl_cons, writeStep, hf, badPaths, ih]

theorem writeFold_version (failures : List LPath) (entries : List FileChange) (st : WriteOut) :
    (entries.foldl (writeStep failures) st).proj.config.framework_version
        = st.proj.config.framework_version ∧
    (entries.foldl (writeStep failures) st).proj.config.framework_updated
        = st.proj.config.framework_updated := by
  induction entries generalizing st with
  | nil => exact ⟨rfl, rfl⟩
  | cons fc r ih =>
    by_cases hf : fc.path ∈ failures
    · simp only [List.foldl_cons, writeStep, if_pos hf]
      exact ih _
    · simp only [List.foldl_cons, writeStep, if_neg hf]
      obtain ⟨h1, h2⟩ := ih ({ st with proj := writeManagedFile st.proj fc
                                     , ok := st.ok ++ [fc.path] })
      exact ⟨h1.trans (writeManagedFile_version st.proj fc),
             h2.trans (writeManagedFile_updated st.proj fc)⟩

theorem writeFold_frame (failures : List LPath) (entries : List FileChange)
    {q : LPath} (h : ∀ fc ∈ entries, fc.path = q → fc.path ∈ failures) (st : WriteOut) :
    lookupFile (entries.foldl (writeStep failures) st).proj q = lookupFile st.proj q ∧
    registryLookup (entries.foldl (writeStep failures) st).proj q
      = registryLookup st.proj q := by
  induction entries generalizing st with
  | nil => exact ⟨rfl, rfl⟩
  | cons fc r ih =>
    have htail : ∀ g ∈ r, g.path = q → g.path ∈ failures :=
      fun g hg => h g (List.mem_cons_of_mem fc hg)
    by_cases hf : fc.path ∈ failures
    · simp only [List.foldl_cons, writeStep, if_pos hf]
      exact ih htail _
    · have hq : q ≠ fc.path := by
        intro he
        exact hf (h fc (List.mem_cons_self fc r) he.symm)
      simp only [List.foldl_cons, writeStep, if_neg hf]
      obtain ⟨h1, h2⟩ := ih htail ({ st with proj := writeManagedFile st.proj fc
                                           , ok := st.ok ++ [fc.path] })
      exact ⟨h1.trans (writeManagedFile_lookup_ne st.proj fc hq),
             h2.trans (writeManagedFile_registry_ne st.proj fc hq)⟩

theorem writeFold_progress (failures : List LPath) {entries : List FileChange}
    (hnd : (entries.map FileChange.path).Nodup) {fc : FileChange} (he : fc ∈ entries)
    (hf : fc.path ∉ failures) (st : WriteOut) :
    lookupFile (entries.foldl (writeStep failures) st).proj fc.path = some fc.content ∧
    (fc.path.head? = some qpCat →
      registryLookup (entries.foldl (writeStep failures) st).proj fc.path =
        some (compute_file_checksum fc.content)) := by
  induction entries generalizing st with
  | nil => cases he
  | cons a r ih =>
    simp only [List.map_cons, List.nodup_cons] at hnd
    rcases List.mem_cons.mp he with rfl | he2
    · simp only [List.foldl_cons, writeStep, if_neg hf]
      have hnotin : ∀ g ∈ r, g.path = fc.path → g.path ∈ failures := by
        intro g hg hgp
        exact absurd (hgp ▸ List.mem_map_of_mem FileChange.path hg) hnd.1
      obtain ⟨h1, h2⟩ := writeFold_frame failures r hnotin
        ({ st with proj := writeManagedFile st.proj fc, ok := st.ok ++ [fc.path] })
      refine ⟨h1.trans (writeManagedFile_lookup_self st.proj fc), fun hh => ?_⟩
      exact h2.trans (writeManagedFile_registry_self st.proj fc hh)
    · by_cases hf2 : a.path ∈ failures
      · simp only [List.foldl_cons, writeStep, if_pos hf2]
        exact ih hnd.2 he2 _
      · simp only [List.foldl_cons, writeStep, if_neg hf2]
        exact ih hnd.2 he2 _

theorem mem_okPaths {failures : List LPath} {entries : List FileChange} {q : LPath} :
    q ∈ okPaths failures entries ↔
      (∃ fc ∈ entries, fc.path = q) ∧ q ∉ failures := by
  induction entries with
  | nil => simp [okPaths]
  | cons fc r ih =>
    by_cases hf : fc.path ∈ failures
    · simp only [okPaths, if_pos hf, ih]
      constructor
      · rintro ⟨⟨g, hg, rfl⟩, hq⟩
        exact ⟨⟨g, List.mem_cons_of_mem fc hg, rfl⟩, hq⟩
      · rintro ⟨⟨g, hg, rfl⟩, hq⟩
        rcases List.mem_cons.mp hg with rfl | hg2
        · exact absurd hf hq
        · exact ⟨⟨g, hg2, rfl⟩, hq⟩
    · simp only [okPaths, if_neg hf, List.mem_cons, ih]
      constructor
      · rintro (rfl | ⟨⟨g, hg, rfl⟩, hq⟩)
        · exact ⟨⟨fc, Or.inl rfl, rfl⟩, hf⟩
        · exact ⟨⟨g, Or.inr hg, rfl⟩, hq⟩
      · rintro ⟨⟨g, hg, rfl⟩, hq⟩
        rcases hg with rfl | hg2
        · exact Or.inl rfl
        · exact Or.inr ⟨⟨g, hg2, rfl⟩, hq⟩

theorem mem_badPaths {failures : List LPath} {entries : List FileChange} {q : LPath} :
    q ∈ badPaths failures entries ↔
      (∃ fc ∈ entries, fc.path = q) ∧ q ∈ failures := by
  induction entries with
  | nil => simp [badPaths]
  | cons fc r ih =>
    by_cases hf : fc.path ∈ failures
    · simp only [badPaths, if_pos hf, List.mem_cons, ih]
      constructor
      · rintro (rfl | ⟨⟨g, hg, rfl⟩, hq⟩)
        · exact ⟨⟨fc, Or.inl rfl, rfl⟩, hf⟩
        · exact ⟨⟨g, Or.inr hg, rfl⟩, hq⟩
      · rintro ⟨⟨g, hg, rfl⟩, hq⟩
        rcases hg with rfl | hg2
        · exact Or.inl rfl
        · exact Or.inr ⟨⟨g, hg2, rfl⟩, hq⟩
    · simp only [badPaths, if_neg hf, ih]
      constructor
      · rintro ⟨⟨g, hg, rfl⟩, hq⟩
        exact ⟨⟨g, List.mem_cons_of_mem fc hg, rfl⟩, hq⟩
      · rintro ⟨⟨g, hg, rfl⟩, hq⟩
        rcases List.mem_cons.mp hg with rfl | hg2
        · exact absurd hq hf
        · exact ⟨⟨g, hg2, rfl⟩, hq⟩

end Ldf
namespace Ldf

/-! ## Lemmas: the conflict resolution fold -/

theorem resolveStep_skip_eq (resolutions : List (LPath × Resolution)) (failures : List LPath)
    (st : ResolveOut) (c : Conflict) (h : resolvedAs resolutions c ≠ .use_framework) :
    resolveStep resolutions failures st c
      = { st with skipped := st.skipped ++ [c.file_path] } := by
  unfold resolvedAs at h
  unfold resolveStep
  rcases hres : (alookup c.file_path resolutions).getD .skip with _ | _ | _
  · rfl
  · exact absurd hres h
  · rfl

theorem resolveStep_use_eq (resolutions : List (LPath × Resolution)) (failures : List LPath)
    (st : ResolveOut) (c : Conflict) (h : resolvedAs resolutions c = .use_framework) :
    resolveStep resolutions failures st c
      = (if c.file_path ∈ failures then { st with bad := st.bad ++ [c.file_path] }
         else { st with proj := writeManagedFile st.proj ⟨c.file_path, c.framework_content⟩
                      , written := st.written ++ [c.file_path] }) := by
  unfold resolvedAs at h
  unfold resolveStep
  rw [h]

theorem resolveFold_written (resolutions : List (LPath × Resolution)) (failures : List LPath)
    (cs : List Conflict) (st : ResolveOut) :
    (cs.foldl (resolveStep resolutions failures) st).written
      = st.written ++ confWritten resolutions failures cs := by
  induction cs generalizing st with
  | nil => simp [confWritten]
  | cons c r ih =>
    by_cases hr : resolvedAs resolutions c = .use_framework
    · by_cases hf : c.file_path ∈ failures <;>
        simp [List.foldl_cons, resolveStep_use_eq _ _ _ _ hr, hf, confWritten, hr, ih]
    · simp [List.foldl_cons, resolveStep_skip_eq _ _ _ _ hr, confWritten, hr, ih]

theorem resolveFold_skipped (resolutions : List (LPath × Resolution)) (failures : List LPath)
    (cs : List Conflict) (st : ResolveOut) :
    (cs.foldl (resolveStep resolutions failures) st).skipped
      = st.skipped ++ confSkipped resolutions cs := by
  induction cs generalizing st with
  | nil => simp [confSkipped]
  | cons c r ih =>
    by_cases hr : resolvedAs resolutions c = .use_framework
    · by_cases hf : c.file_path ∈ failures <;>
        simp [List.foldl_cons, resolveStep_use_eq _ _ _ _ hr, hf, confSkipped, hr, ih]
    · simp [List.foldl_cons, resolveStep_skip_eq _ _ _ _ hr, confSkipped, hr, ih]

theorem resolveFold_bad (resolutions : List (LPath × Resolution)) (failures : List LPath)
    (cs : List Conflict) (st : ResolveOut) :
    (cs.foldl (resolveStep resolutions failures) st).bad
      = st.bad ++ confBad resolutions failures cs := by
  induction cs generalizing st with
  | nil => simp [confBad]
  | cons c r ih =>
    by_cases hr : resolvedAs resolutions c = .use_framework
    · by_cases hf : c.file_path ∈ failures <;>
        simp [List.foldl_cons, resolveStep_use_eq _ _ _ _ hr, hf, confBad, hr, ih]
    · simp [List.foldl_cons, resolveStep_skip_eq _ _ _ _ hr, confBad, hr, ih]

theorem resolveFold_version (resolutions : List (LPath × Resolution)) (failures : List LPath)
    (cs : List Conflict) (st : ResolveOut) :
    (cs.foldl (resolveStep resolutions failures) st).proj.config.framework_version
        = st.proj.config.framework_version ∧
    (cs.foldl (resolveStep resolutions failures) st).proj.config.framework_updated
        = st.proj.config.framework_updated := by
  induction cs generalizing st with
  | nil => exact ⟨rfl, rfl⟩
  | cons c r ih =>
    by_cases hr : resolvedAs resolutions c = .use_framework
    · by_cases hf : c.file_path ∈ failures
      · rw [List.foldl_cons, resolveStep_use_eq _ _ _ _ hr, if_pos hf]
        exact ih _
      · rw [List.foldl_cons, resolveStep_use_eq _ _ _ _ hr, if_neg hf]
        obtain ⟨h1, h2⟩ := ih ({ st with
          proj := writeManagedFile st.proj ⟨c.file_path, c.framework_content⟩
          , written := st.written ++ [c.file_path] })
        exact ⟨h1.trans (writeManagedFile_version _ _),
               h2.trans (writeManagedFile_updated _ _)⟩
    · rw [List.foldl_cons, resolveStep_skip_eq _ _ _ _ hr]
      exact ih _

theorem resolveFold_frame (resolutions : List (LPath × Resolution)) (failures : List LPath)
    (cs : List Conflict) {q : LPath}
    (h : ∀ c ∈ cs, c.file_path = q →
      resolvedAs resolutions c = .use_framework → c.file_path ∈ failures)
    (st : ResolveOut) :
    lookupFile (cs.foldl (resolveStep resolutions failures) st).proj q
        = lookupFile st.proj q ∧
    registryLookup (cs.foldl (resolveStep resolutions failures) st).proj q
        = registryLookup st.proj q := by
  induction cs generalizing st with
  | nil => exact ⟨rfl, rfl⟩
  | cons c r ih =>
    have htail : ∀ g ∈ r, g.file_path = q →
        resolvedAs resolutions g = .use_framework → g.file_path ∈ failures :=
      fun g hg => h g (List.mem_cons_of_mem c hg)
    by_cases hr : resolvedAs resolutions c = .use_framework
    · by_cases hf : c.file_path ∈ failures
      · rw [List.foldl_cons, resolveStep_use_eq _ _ _ _ hr, if_pos hf]
        exact ih htail _
      · have hq : q ≠ c.file_path := by
          intro he
          exact hf (h c (List.mem_cons_self c r) he.symm hr)
        rw [List.foldl_cons, resolveStep_use_eq _ _ _ _ hr, if_neg hf]
        obtain ⟨h1, h2⟩ := ih htail ({ st with
          proj := writeManagedFile st.proj ⟨c.file_path, c.framework_content⟩
          , written := st.written ++ [c.file_path] })
        exact ⟨h1.trans (writeManagedFile_lookup_ne _ _ hq),
               h2.trans (writeManagedFile_registry_ne _ _ hq)⟩
    · rw [List.foldl_cons, resolveStep_skip_eq _ _ _ _ hr]
      exact ih htail _

theorem resolveFold_progress (resolutions : List (LPath × Resolution)) (failures : List LPath)
    {cs : List Conflict} (hnd : (cs.map Conflict.file_path).Nodup) {c : Conflict}
    (hc : c ∈ cs) (hr : resolvedAs resolutions c = .use_framework)
    (hf : c.file_path ∉ failures) (st : ResolveOut) :
    lookupFile (cs.foldl (resolveStep resolutions failures) st).proj c.file_path
        = some c.framework_content ∧
    (c.file_path.head? = some qpCat →
      registryLookup (cs.foldl (resolveStep resolutions failures) st).proj c.file_path
        = some (compute_file_checksum c.framework_content)) := by
  induction cs generalizing st with
  | nil => cases hc
  | cons a r ih =>
    simp only [List.map_cons, List.nodup_cons] at hnd
    rcases List.mem_cons.mp hc with rfl | hc2
    · rw [List.foldl_cons, resolveStep_use_eq _ _ _ _ hr, if_neg hf]
      have hnotin : ∀ g ∈ r, g.file_path = c.file_path →
          resolvedAs resolutions g = .use_framework → g.file_path ∈ failures := by
        intro g hg hgp _
        exact absurd (hgp ▸ List.mem_map_of_mem Conflict.file_path hg) hnd.1
      obtain ⟨h1, h2⟩ := resolveFold_frame resolutions failures r hnotin
        ({ st with proj := writeManagedFile st.proj ⟨c.file_path, c.framework_content⟩
                 , written := st.written ++ [c.file_path] })
      refine ⟨h1.trans (writeManagedFile_lookup_self _ _), fun hh => ?_⟩
      exact h2.trans (writeManagedFile_registry_self _ _ hh)
    · by_cases hra : resolvedAs resolutions a = .use_framework
      · by_cases hfa : a.file_path ∈ failures
        · rw [List.foldl_cons, resolveStep_use_eq _ _ _ _ hra, if_pos hfa]
          exact ih hnd.2 hc2 _
        · rw [List.foldl_cons, resolveStep_use_eq _ _ _ _ hra, if_neg hfa]
          exact ih hnd.2 hc2 _
      · rw [List.foldl_cons, resolveStep_skip_eq _ _ _ _ hra]
        exact ih hnd.2 hc2 _

theorem mem_confSkipped {resolutions : List (LPath × Resolution)} {cs : List Conflict}
    {q : LPath} :
    q ∈ confSkipped resolutions cs ↔
      ∃ c ∈ cs, c.file_path = q ∧ resolvedAs resolutions c ≠ .use_framework := by
  induction cs with
  | nil => simp [confSkipped]
  | cons c r ih =>
    by_cases hr : resolvedAs resolutions c = .use_framework
    · simp only [confSkipped, if_pos hr, ih]
      constructor
      · rintro ⟨g, hg, rfl, hgr⟩
        exact ⟨g, List.mem_cons_of_mem c hg, rfl, hgr⟩
      · rintro ⟨g, hg, rfl, hgr⟩
        rcases List.mem_cons.mp hg with rfl | hg2
        · exact absurd hr hgr
        · exact ⟨g, hg2, rfl, hgr⟩
    · simp only [confSkipped, if_neg hr, List.mem_cons, ih]
      constructor
      · rintro (rfl | ⟨g, hg, rfl, hgr⟩)
        · exact ⟨c, Or.inl rfl, rfl, hr⟩
        · exact ⟨g, Or.inr hg, rfl, hgr⟩
      · rintro ⟨g, hg, rfl, hgr⟩
        rcases hg with rfl | hg2
        · exact Or.inl rfl
        · exact Or.inr ⟨g, hg2, rfl, hgr⟩

theorem mem_confBad {resolutions : List (LPath × Resolution)} {failures : List LPath}
    {cs : List Conflict} {q : LPath} :
    q ∈ confBad resolutions failures cs ↔
      ∃ c ∈ cs, c.file_path = q ∧ resolvedAs resolutions c = .use_framework
        ∧ q ∈ failures := by
  induction cs with
  | nil => simp [confBad]
  | cons c r ih =>
    by_cases hr : resolvedAs resolutions c = .use_framework
    · by_cases hf : c.file_path ∈ failures
      · simp only [confBad, if_pos hr, if_pos hf, List.mem_cons, ih]
        constructor
        · rintro (rfl | ⟨g, hg, rfl, hgr, hgf⟩)
          · exact ⟨c, Or.inl rfl, rfl, hr, hf⟩
          · exact ⟨g, Or.inr hg, rfl, hgr, hgf⟩
        · rintro ⟨g, hg, rfl, hgr, hgf⟩
          rcases hg with rfl | hg2
          · exact Or.inl rfl
          · exact Or.inr ⟨g, hg2, rfl, hgr, hgf⟩
      · simp only [confBad, if_pos hr, if_neg hf, ih]
        constructor
        · rintro ⟨g, hg, rfl, hgr, hgf⟩
          exact ⟨g, List.mem_cons_of_mem c hg, rfl, hgr, hgf⟩
        · rintro ⟨g, hg, rfl, hgr, hgf⟩
          rcases List.mem_cons.mp hg with rfl | hg2
          · exact absurd hgf hf
          · exact ⟨g, hg2, rfl, hgr, hgf⟩
    · simp only [confBad, if_neg hr, ih]
      constructor
      · rintro ⟨g, hg, rfl, hgr, hgf⟩
        exact ⟨g, List.mem_cons_of_mem c hg, rfl, hgr, hgf⟩
      · rintro ⟨g, hg, rfl, hgr, hgf⟩
        rcases List.mem_cons.mp hg with rfl | hg2
        · exact absurd hgr hr
        · exact ⟨g, hg2, rfl, hgr, hgf⟩

theorem mem_confWritten {resolutions : List (LPath × Resolution)} {failures : List LPath}
    {cs : List Conflict} {q : LPath} :
    q ∈ confWritten resolutions failures cs ↔
      ∃ c ∈ cs, c.file_path = q ∧ resolvedAs resolutions c = .use_framework
        ∧ q ∉ failures := by
  induction cs with
  | nil => simp [confWritten]
  | cons c r ih =>
    by_cases hr : resolvedAs resolutions c = .use_framework
    · by_cases hf : c.file_path ∈ failures
      · simp only [confWritten, if_pos hr, if_pos hf, ih]
        constructor
        · rintro ⟨g, hg, rfl, hgr, hgf⟩
          exact ⟨g, List.mem_cons_of_mem c hg, rfl, hgr, hgf⟩
        · rintro ⟨g, hg, rfl, hgr, hgf⟩
          rcases List.mem_cons.mp hg with rfl | hg2
          · exact absurd hf hgf
          · exact ⟨g, hg2, rfl, hgr, hgf⟩
      · simp only [confWritten, if_pos hr, if_neg hf, List.mem_cons, ih]
        constructor
        · rintro (rfl | ⟨g, hg, rfl, hgr, hgf⟩)
          · exact ⟨c, Or.inl rfl, rfl, hr, hf⟩
          · exact ⟨g, Or.inr hg, rfl, hgr, hgf⟩
        · rintro ⟨g, hg, rfl, hgr, hgf⟩
          rcases hg with rfl | hg2
          · exact Or.inl rfl
          · exact Or.inr ⟨g, hg2, rfl, hgr, hgf⟩
    · simp only [confWritten, if_neg hr, ih]
      constructor
      · rintro ⟨g, hg, rfl, hgr, hgf⟩
        exact ⟨g, List.mem_cons_of_mem c hg, rfl, hgr, hgf⟩
      · rintro ⟨g, hg, rfl, hgr, hgf⟩
        rcases List.mem_cons.mp hg with rfl | hg2
        · exact absurd hgr hr
        · exact ⟨g, hg2, rfl, hgr, hgf⟩

end Ldf
namespace Ldf

/-! ## Lemmas: the shape of a non-dry-run apply -/

theorem apply_errors_eq (fw : Framework) (proj : Project) (comps : Option (List String))
    (resolutions : List (LPath × Resolution)) (failures : List LPath) (now : String) :
    (apply_updates fw proj comps resolutions false failures now).2.errors
      = badPaths failures (get_update_diff fw proj comps).files_to_add
        ++ (badPaths failures (get_update_diff fw proj comps).files_to_update
        ++ confBad resolutions failures (get_update_diff fw proj comps).conflicts) := by
  unfold apply_updates
  simp only [Bool.false_eq_true, if_false, writeFold_bad, resolveFold_bad, List.nil_append,
    List.append_assoc]

theorem apply_added_eq (fw : Framework) (proj : Project) (comps : Option (List String))
    (resolutions : List (LPath × Resolution)) (failures : List LPath) (now : String) :
    (apply_updates fw proj comps resolutions false failures now).2.files_added
      = okPaths failures (get_update_diff fw proj comps).files_to_add := by
  unfold apply_updates
  simp only [Bool.false_eq_true, if_false, writeFold_ok, List.nil_append]

theorem apply_updated_eq (fw : Framework) (proj : Project) (comps : Option (List String))
    (resolutions : List (LPath × Resolution)) (failures : List LPath) (now : String) :
    (apply_updates fw proj comps resolutions false failures now).2.files_updated
      = okPaths failures (get_update_diff fw proj comps).files_to_update
        ++ confWritten resolutions failures (get_update_diff fw proj comps).conflicts := by
  unfold apply_updates
  simp only [Bool.false_eq_true, if_false, writeFold_ok, resolveFold_written,
    List.nil_append]

theorem apply_skipped_eq (fw : Framework) (proj : Project) (comps : Option (List String))
    (resolutions : List (LPath × Resolution)) (failures : List LPath) (now : String) :
    (apply_updates fw proj comps resolutions false failures now).2.files_skipped
      = confSkipped resolutions (get_update_diff fw proj comps).conflicts := by
  unfold apply_updates
  simp only [Bool.false_eq_true, if_false, resolveFold_skipped, List.nil_append]

theorem apply_success_eq (fw : Framework) (proj : Project) (comps : Option (List String))
    (resolutions : List (LPath × Resolution)) (failures : List LPath) (now : String) :
    (apply_updates fw proj comps resolutions false failures now).2.success
      = (apply_updates fw proj comps resolutions false failures now).2.errors.isEmpty := by
  unfold apply_updates
  simp only [Bool.false_eq_true, if_false]

theorem apply_fst_files (fw : Framework) (proj : Project) (comps : Option (List String))
    (resolutions : List (LPath × Resolution)) (failures : List LPath) (now : String) :
    (apply_updates fw proj comps resolutions false failures now).1.files
      = (applyCore fw proj comps resolutions failures).files := by
  unfold apply_updates applyCore
  simp only [Bool.false_eq_true, if_false]
  split <;> rfl

theorem apply_fst_checksums (fw : Framework) (proj : Project) (comps : Option (List String))
    (resolutions : List (LPath × Resolution)) (failures : List LPath) (now : String) :
    (apply_updates fw proj comps resolutions false failures now).1.config.checksums
      = (applyCore fw proj comps resolutions failures).config.checksums := by
  unfold apply_updates applyCore
  simp only [Bool.false_eq_true, if_false]
  split <;> rfl

theorem apply_fst_lookup (fw : Framework) (proj : Project) (comps : Option (List String))
    (resolutions : List (LPath × Resolution)) (failures : List LPath) (now : String)
    (q : LPath) :
    lookupFile (apply_updates fw proj comps resolutions false failures now).1 q
      = lookupFile (applyCore fw proj comps resolutions failures) q := by
  unfold lookupFile
  rw [apply_fst_files]

theorem apply_fst_registry (fw : Framework) (proj : Project) (comps : Option (List String))
    (resolutions : List (LPath × Resolution)) (failures : List LPath) (now : String)
    (q : LPath) :
    registryLookup (apply_updates fw proj comps resolutions false failures now).1 q
      = registryLookup (applyCore fw proj comps resolutions failures) q := by
  unfold registryLookup
  rw [apply_fst_checksums]

/-- On success of all writes the config is stamped with the installed
version and the update timestamp. -/
theorem apply_fst_version_of_no_errors (fw : Framework) (proj : Project)
    (comps : Option (List String)) (resolutions : List (LPath × Resolution))
    (failures : List LPath) (now : String)
    (h : (apply_updates fw proj comps resolutions false failures now).2.errors = []) :
    (apply_updates fw proj comps resolutions false failures now).1.config.framework_version
        = some fw.version ∧
    (apply_updates fw proj comps resolutions false failures now).1.config.framework_updated
        = some now := by
  revert h
  unfold apply_updates
  simp only [Bool.false_eq_true, if_false]
  intro h
  simp [h]

end Ldf

namespace Ldf

/-! ## Lemmas: distinctness of the paths the diff writes -/

theorem head_disjoint {l1 l2 : List LPath} {c1 c2 : String} (hne : c1 ≠ c2)
    (h1 : ∀ q ∈ l1, q.head? = some c1) (h2 : ∀ q ∈ l2, q.head? = some c2) :
    l1.Disjoint l2 := by
  intro q hq1 hq2
  have := (h1 q hq1).symm.trans (h2 q hq2)
  simp at this
  exact hne this

theorem ite_part_head (P : Prop) [Decidable P] (part : List FileChange) (cat : String)
    (hpart : ∀ fc ∈ part, fc.path.head? = some cat) :
    ∀ q ∈ ((if P then part else []).map FileChange.path), q.head? = some cat := by
  intro q hq
  rcases Decidable.em P with hp | hp
  · rw [if_pos hp] at hq
    obtain ⟨fc, hfc, rfl⟩ := List.mem_map.mp hq
    exact hpart fc hfc
  · rw [if_neg hp] at hq
    cases hq

theorem ite_part_nodup (P : Prop) [Decidable P] (part : List FileChange)
    (hpart : (part.map FileChange.path).Nodup) :
    ((if P then part else []).map FileChange.path).Nodup := by
  rcases Decidable.em P with hp | hp
  · rw [if_pos hp]; exact hpart
  · rw [if_neg hp]; exact List.nodup_nil

theorem diff_add_paths_nodup (fw : Framework) (proj : Project) (comps : Option (List String))
    (hnd1 : (fw.templates.map Prod.fst).Nodup) (hnd2 : (fw.macros.map Prod.fst).Nodup)
    (hnd3 : (fw.question_packs.map Prod.fst).Nodup) :
    ((get_update_diff fw proj comps).files_to_add.map FileChange.path).Nodup := by
  rw [diff_add_eq]
  simp only [List.map_append]
  have hT := ite_part_head (tplCat ∈ comps.getD allComponents)
    (diffOf tplCat (classifyAlways proj tplCat) fw.templates).files_to_add tplCat
    (fun fc hfc => diffOf_add_head hfc)
  have hM := ite_part_head (macCat ∈ comps.getD allComponents)
    (diffOf macCat (classifyAlways proj macCat) fw.macros).files_to_add macCat
    (fun fc hfc => diffOf_add_head hfc)
  have hQ := ite_part_head (qpCat ∈ comps.getD allComponents)
    (diffOf qpCat (classifyPack proj) fw.question_packs).files_to_add qpCat
    (fun fc hfc => diffOf_add_head hfc)
  have nT := ite_part_nodup (tplCat ∈ comps.getD allComponents)
    (diffOf tplCat (classifyAlways proj tplCat) fw.templates).files_to_add
    (diffOf_add_paths_nodup tplCat (classifyAlways proj tplCat) hnd1)
  have nM := ite_part_nodup (macCat ∈ comps.getD allComponents)
    (diffOf macCat (classifyAlways proj macCat) fw.macros).files_to_add
    (diffOf_add_paths_nodup macCat (classifyAlways proj macCat) hnd2)
  have nQ := ite_part_nodup (qpCat ∈ comps.getD allComponents)
    (diffOf qpCat (classifyPack proj) fw.question_packs).files_to_add
    (diffOf_add_paths_nodup qpCat (classifyPack proj) hnd3)
  refine List.Nodup.append (List.Nodup.append nT nM ?_) nQ ?_
  · exact head_disjoint (by decide) hT hM
  · intro q hq hq2
    have hh : q.head? = some tplCat ∨ q.head? = some macCat := by
      rcases List.mem_append.mp hq with h | h
      · exact Or.inl (hT q h)
      · exact Or.inr (hM q h)
    have hq3 := hQ q hq2
    rcases hh with hh | hh <;> rw [hq3] at hh <;> simp at hh <;> exact absurd hh (by decide)

theorem diff_upd_paths_nodup (fw : Framework) (proj : Project) (comps : Option (List String))
    (hnd1 : (fw.templates.map Prod.fst).Nodup) (hnd2 : (fw.macros.map Prod.fst).Nodup)
    (hnd3 : (fw.question_packs.map Prod.fst).Nodup) :
    ((get_update_diff fw proj comps).files_to_update.map FileChange.path).Nodup := by
  rw [diff_upd_eq]
  simp only [List.map_append]
  have hT := ite_part_head (tplCat ∈ comps.getD allComponents)
    (diffOf tplCat (classifyAlways proj tplCat) fw.templates).files_to_update tplCat
    (fun fc hfc => diffOf_upd_head hfc)
  have hM := ite_part_head (macCat ∈ comps.getD allComponents)
    (diffOf macCat (classifyAlways proj macCat) fw.macros).files_to_update macCat
    (fun fc hfc => diffOf_upd_head hfc)
  have hQ := ite_part_head (qpCat ∈ comps.getD allComponents)
    (diffOf qpCat (classifyPack proj) fw.question_packs).files_to_update qpCat
    (fun fc hfc => diffOf_upd_head hfc)
  have nT := ite_part_nodup (tplCat ∈ comps.getD allComponents)
    (diffOf tplCat (classifyAlways proj tplCat) fw.templates).files_to_update
    (diffOf_upd_paths_nodup tplCat (classifyAlways proj tplCat) hnd1)
  have nM := ite_part_nodup (macCat ∈ comps.getD allComponents)
    (diffOf macCat (classifyAlways proj macCat) fw.macros).files_to_update
    (diffOf_upd_paths_nodup macCat (classifyAlways proj macCat) hnd2)
  have nQ := ite_part_nodup (qpCat ∈ comps.getD allComponents)
    (diffOf qpCat (classifyPack proj) fw.question_packs).files_to_update
    (diffOf_upd_paths_nodup qpCat (classifyPack proj) hnd3)
  refine List.Nodup.append (List.Nodup.append nT nM ?_) nQ ?_
  · exact head_disjoint (by decide) hT hM
  · intro q hq hq2
    have hh : q.head? = some tplCat ∨ q.head? = some macCat := by
      rcases List.mem_append.mp hq with h | h
      · exact Or.inl (hT q h)
      · exact Or.inr (hM q h)
    have hq3 := hQ q hq2
    rcases hh with hh | hh <;> rw [hq3] at hh <;> simp at hh <;> exact absurd hh (by decide)

theorem diff_conf_eq_qp (fw : Framework) (proj : Project) (comps : Option (List String)) :
    (get_update_diff fw proj comps).conflicts
      = (if qpCat ∈ comps.getD allComponents then
          (diffOf qpCat (classifyPack proj) fw.question_packs).conflicts else []) := by
  rw [diff_conf_eq, diffOf_always_conflicts, diffOf_always_conflicts]
  simp

theorem diff_conf_paths_nodup (fw : Framework) (proj : Project) (comps : Option (List String))
    (hnd3 : (fw.question_packs.map Prod.fst).Nodup) :
    ((get_update_diff fw proj comps).conflicts.map Conflict.file_path).Nodup := by
  rw [diff_conf_eq_qp]
  rcases Decidable.em (qpCat ∈ comps.getD allComponents) with hp | hp
  · rw [if_pos hp]
    exact diffOf_conf_paths_nodup qpCat (classifyPack proj) hnd3
  · rw [if_neg hp]
    exact List.nodup_nil

end Ldf
namespace Ldf

/-! ## Lemmas: the diff never classifies one path two ways -/

theorem path_head_ne {q1 q2 : LPath} {c1 c2 : String} (h1 : q1.head? = some c1)
    (h2 : q2.head? = some c2) (hne : c1 ≠ c2) : q1 ≠ q2 := by
  intro he
  rw [he, h2] at h1
  simp at h1
  exact hne h1.symm

theorem same_cat_add_upd {cat : String} {cls : (String × Content) → FileClass}
    {entries : List (String × Content)} (hnd : (entries.map Prod.fst).Nodup)
    {fc fc2 : FileChange} (h1 : fc ∈ (diffOf cat cls entries).files_to_add)
    (h2 : fc2 ∈ (diffOf cat cls entries).files_to_update) : fc.path ≠ fc2.path := by
  obtain ⟨e, he, hcls, rfl⟩ := (diffOf_add_spec cat cls entries fc).mp h1
  intro hp
  have h3 := diffOf_upd_path_class hnd h2 he hp.symm
  rw [hcls] at h3
  cases h3

theorem same_cat_add_conf {cat : String} {cls : (String × Content) → FileClass}
    {entries : List (String × Content)} (hnd : (entries.map Prod.fst).Nodup)
    {fc : FileChange} {c : Conflict} (h1 : fc ∈ (diffOf cat cls entries).files_to_add)
    (h2 : c ∈ (diffOf cat cls entries).conflicts) : fc.path ≠ c.file_path := by
  obtain ⟨e, he, hcls, rfl⟩ := (diffOf_add_spec cat cls entries fc).mp h1
  intro hp
  obtain ⟨lc, st, h3⟩ := diffOf_conf_path_class hnd h2 he hp.symm
  rw [hcls] at h3
  cases h3

theorem same_cat_upd_conf {cat : String} {cls : (String × Content) → FileClass}
    {entries : List (String × Content)} (hnd : (entries.map Prod.fst).Nodup)
    {fc : FileChange} {c : Conflict} (h1 : fc ∈ (diffOf cat cls entries).files_to_update)
    (h2 : c ∈ (diffOf cat cls entries).conflicts) : fc.path ≠ c.file_path := by
  obtain ⟨e, he, hcls, rfl⟩ := (diffOf_upd_spec cat cls entries fc).mp h1
  intro hp
  obtain ⟨lc, st, h3⟩ := diffOf_conf_path_class hnd h2 he hp.symm
  rw [hcls] at h3
  cases h3

theorem diff_add_upd_path_ne {fw : Framework} {proj : Project} {comps : Option (List String)}
    (hnd1 : (fw.templates.map Prod.fst).Nodup) (hnd2 : (fw.macros.map Prod.fst).Nodup)
    (hnd3 : (fw.question_packs.map Prod.fst).Nodup) {fc fc2 : FileChange}
    (h1 : fc ∈ (get_update_diff fw proj comps).files_to_add)
    (h2 : fc2 ∈ (get_update_diff fw proj comps).files_to_update) : fc.path ≠ fc2.path := by
  rcases diff_add_cases h1 with hA | hA | hA <;> rcases diff_upd_cases h2 with hB | hB | hB
  · exact same_cat_add_upd hnd1 hA hB
  · exact path_head_ne (diffOf_add_head hA) (diffOf_upd_head hB) (by decide)
  · exact path_head_ne (diffOf_add_head hA) (diffOf_upd_head hB) (by decide)
  · exact path_head_ne (diffOf_add_head hA) (diffOf_upd_head hB) (by decide)
  · exact same_cat_add_upd hnd2 hA hB
  · exact path_head_ne (diffOf_add_head hA) (diffOf_upd_head hB) (by decide)
  · exact path_head_ne (diffOf_add_head hA) (diffOf_upd_head hB) (by decide)
  · exact path_head_ne (diffOf_add_head hA) (diffOf_upd_head hB) (by decide)
  · exact same_cat_add_upd hnd3 hA hB

theorem diff_add_conf_path_ne {fw : Framework} {proj : Project} {comps : Option (List String)}
    (hnd3 : (fw.question_packs.map Prod.fst).Nodup) {fc : FileChange} {c : Conflict}
    (h1 : fc ∈ (get_update_diff fw proj comps).files_to_add)
    (h2 : c ∈ (get_update_diff fw proj comps).conflicts) : fc.path ≠ c.file_path := by
  obtain ⟨hqp, h2q⟩ := diff_conf_from_packs h2
  rcases diff_add_cases h1 with hA | hA | hA
  · exact path_head_ne (diffOf_add_head hA) (diffOf_conf_head h2q) (by decide)
  · exact path_head_ne (diffOf_add_head hA) (diffOf_conf_head h2q) (by decide)
  · exact same_cat_add_conf hnd3 hA h2q

theorem diff_upd_conf_path_ne {fw : Framework} {proj : Project} {comps : Option (List String)}
    (hnd3 : (fw.question_packs.map Prod.fst).Nodup) {fc : FileChange} {c : Conflict}
    (h1 : fc ∈ (get_update_diff fw proj comps).files_to_update)
    (h2 : c ∈ (get_update_diff fw proj comps).conflicts) : fc.path ≠ c.file_path := by
  obtain ⟨hqp, h2q⟩ := diff_conf_from_packs h2
  rcases diff_upd_cases h1 with hA | hA | hA
  · exact path_head_ne (diffOf_upd_head hA) (diffOf_conf_head h2q) (by decide)
  · exact path_head_ne (diffOf_upd_head hA) (diffOf_conf_head h2q) (by decide)
  · exact same_cat_upd_conf hnd3 hA h2q

/-! ## Lemmas: what the apply passes do to each path -/

theorem applyCore_frame (fw : Framework) (proj : Project) (comps : Option (List String))
    (resolutions : List (LPath × Resolution)) (failures : List LPath) {q : LPath}
    (hadd : ∀ fc ∈ (get_update_diff fw proj comps).files_to_add,
      fc.path = q → fc.path ∈ failures)
    (hupd : ∀ fc ∈ (get_update_diff fw proj comps).files_to_update,
      fc.path = q → fc.path ∈ failures)
    (hconf : ∀ c ∈ (get_update_diff fw proj comps).conflicts, c.file_path = q →
      resolvedAs resolutions c = .use_framework → c.file_path ∈ failures) :
    lookupFile (applyCore fw proj comps resolutions failures) q = lookupFile proj q ∧
    registryLookup (applyCore fw proj comps resolutions failures) q
      = registryLookup proj q := by
  obtain ⟨a1, a2⟩ := writeFold_frame failures (get_update_diff fw proj comps).files_to_add
    hadd (⟨proj, [], []⟩ : WriteOut)
  obtain ⟨u1, u2⟩ := writeFold_frame failures (get_update_diff fw proj comps).files_to_update
    hupd ⟨((get_update_diff fw proj comps).files_to_add.foldl (writeStep failures)
      ⟨proj, [], []⟩).proj, [], []⟩
  obtain ⟨r1, r2⟩ := resolveFold_frame resolutions failures
    (get_update_diff fw proj comps).conflicts hconf
    ⟨((get_update_diff fw proj comps).files_to_update.foldl (writeStep failures)
      ⟨((get_update_diff fw proj comps).files_to_add.foldl (writeStep failures)
        ⟨proj, [], []⟩).proj, [], []⟩).proj, [], [], []⟩
  exact ⟨r1.trans (u1.trans a1), r2.trans (u2.trans a2)⟩

theorem applyCore_frame_unmanaged (fw : Framework) (proj : Project)
    (comps : Option (List String)) (resolutions : List (LPath × Resolution))
    (failures : List LPath) {q : LPath} (h1 : q.head? ≠ some tplCat)
    (h2 : q.head? ≠ some macCat) (h3 : q.head? ≠ some qpCat) :
    lookupFile (applyCore fw proj comps resolutions failures) q = lookupFile proj q ∧
    registryLookup (applyCore fw proj comps resolutions failures) q
      = registryLookup proj q := by
  refine applyCore_frame fw proj comps resolutions failures ?_ ?_ ?_
  · intro fc hfc hp
    exfalso
    rcases diff_write_head (Or.inl hfc) with hh | hh | hh
    · exact h1 (hp ▸ hh)
    · exact h2 (hp ▸ hh)
    · exact h3 (hp ▸ hh)
  · intro fc hfc hp
    exfalso
    rcases diff_write_head (Or.inr hfc) with hh | hh | hh
    · exact h1 (hp ▸ hh)
    · exact h2 (hp ▸ hh)
    · exact h3 (hp ▸ hh)
  · intro c hc hp _
    exfalso
    obtain ⟨_, hcq⟩ := diff_conf_from_packs hc
    exact h3 (hp ▸ diffOf_conf_head hcq)

theorem applyCore_progress_add (fw : Framework) (proj : Project)
    (comps : Option (List String)) (resolutions : List (LPath × Resolution))
    (failures : List LPath)
    (hnd1 : (fw.templates.map Prod.fst).Nodup) (hnd2 : (fw.macros.map Prod.fst).Nodup)
    (hnd3 : (fw.question_packs.map Prod.fst).Nodup) {fc : FileChange}
    (h : fc ∈ (get_update_diff fw proj comps).files_to_add) (hf : fc.path ∉ failures) :
    lookupFile (applyCore fw proj comps resolutions failures) fc.path = some fc.content ∧
    (fc.path.head? = some qpCat →
      registryLookup (applyCore fw proj comps resolutions failures) fc.path
        = some (compute_file_checksum fc.content)) := by
  obtain ⟨a1, a2⟩ := writeFold_progress failures
    (diff_add_paths_nodup fw proj comps hnd1 hnd2 hnd3) h hf (⟨proj, [], []⟩ : WriteOut)
  have hupd : ∀ g ∈ (get_update_diff fw proj comps).files_to_update,
      g.path = fc.path → g.path ∈ failures := by
    intro g hg hp
    exact absurd hp.symm (diff_add_upd_path_ne hnd1 hnd2 hnd3 h hg)
  have hconf : ∀ c ∈ (get_update_diff fw proj comps).conflicts, c.file_path = fc.path →
      resolvedAs resolutions c = .use_framework → c.file_path ∈ failures := by
    intro c hc hp _
    exact absurd hp.symm (diff_add_conf_path_ne hnd3 h hc)
  obtain ⟨u1, u2⟩ := writeFold_frame failures (get_update_diff fw proj comps).files_to_update
    hupd ⟨((get_update_diff fw proj comps).files_to_add.foldl (writeStep failures)
      ⟨proj, [], []⟩).proj, [], []⟩
  obtain ⟨r1, r2⟩ := resolveFold_frame resolutions failures
    (get_update_diff fw proj comps).conflicts hconf
    ⟨((get_update_diff fw proj comps).files_to_update.foldl (writeStep failures)
      ⟨((get_update_diff fw proj comps).files_to_add.foldl (writeStep failures)
        ⟨proj, [], []⟩).proj, [], []⟩).proj, [], [], []⟩
  exact ⟨r1.trans (u1.trans a1), fun hh => (r2.trans u2).trans (a2 hh)⟩

theorem applyCore_progress_upd (fw : Framework) (proj : Project)
    (comps : Option (List String)) (resolutions : List (LPath × Resolution))
    (failures : List LPath)
    (hnd1 : (fw.templates.map Prod.fst).Nodup) (hnd2 : (fw.macros.map Prod.fst).Nodup)
    (hnd3 : (fw.question_packs.map Prod.fst).Nodup) {fc : FileChange}
    (h : fc ∈ (get_update_diff fw proj comps).files_to_update) (hf : fc.path ∉ failures) :
    lookupFile (applyCore fw proj comps resolutions failures) fc.path = some fc.content ∧
    (fc.path.head? = some qpCat →
      registryLookup (applyCore fw proj comps resolutions failures) fc.path
        = some (compute_file_checksum fc.content)) := by
  have hadd : ∀ g ∈ (get_update_diff fw proj comps).files_to_add,
      g.path = fc.path → g.path ∈ failures := by
    intro g hg hp
    exact absurd hp (diff_add_upd_path_ne hnd1 hnd2 hnd3 hg h)
  obtain ⟨a1, a2⟩ := writeFold_frame failures (get_update_diff fw proj comps).files_to_add
    hadd (⟨proj, [], []⟩ : WriteOut)
  obtain ⟨u1, u2⟩ := writeFold_progress failures
    (diff_upd_paths_nodup fw proj comps hnd1 hnd2 hnd3) h hf
    ⟨((get_update_diff fw proj comps).files_to_add.foldl (writeStep failures)
      ⟨proj, [], []⟩).proj, [], []⟩
  have hconf : ∀ c ∈ (get_update_diff fw proj comps).conflicts, c.file_path = fc.path →
      resolvedAs resolutions c = .use_framework → c.file_path ∈ failures := by
    intro c hc hp _
    exact absurd hp.symm (diff_upd_conf_path_ne hnd3 h hc)
  obtain ⟨r1, r2⟩ := resolveFold_frame resolutions failures
    (get_update_diff fw proj comps).conflicts hconf
    ⟨((get_update_diff fw proj comps).files_to_update.foldl (writeStep failures)
      ⟨((get_update_diff fw proj comps).files_to_add.foldl (writeStep failures)
        ⟨proj, [], []⟩).proj, [], []⟩).proj, [], [], []⟩
  exact ⟨r1.trans u1, fun hh => r2.trans (u2 hh)⟩

theorem applyCore_progress_conf (fw : Framework) (proj : Project)
    (comps : Option (List String)) (resolutions : List (LPath × Resolution))
    (failures : List LPath)
    (hnd1 : (fw.templates.map Prod.fst).Nodup) (hnd2 : (fw.macros.map Prod.fst).Nodup)
    (hnd3 : (fw.question_packs.map Prod.fst).Nodup) {c : Conflict}
    (h : c ∈ (get_update_diff fw proj comps).conflicts)
    (hres : resolvedAs resolutions c = .use_framework) (hf : c.file_path ∉ failures) :
    lookupFile (applyCore fw proj comps resolutions failures) c.file_path
      = some c.framework_content ∧
    (c.file_path.head? = some qpCat →
      registryLookup (applyCore fw proj comps resolutions failures) c.file_path
        = some (compute_file_checksum c.framework_content)) := by
  have hadd : ∀ g ∈ (get_update_diff fw proj comps).files_to_add,
      g.path = c.file_path → g.path ∈ failures := by
    intro g hg hp
    exact absurd hp (diff_add_conf_path_ne hnd3 hg h)
  have hupd : ∀ g ∈ (get_update_diff fw proj comps).files_to_update,
      g.path = c.file_path → g.path ∈ failures := by
    intro g hg hp
    exact absurd hp (diff_upd_conf_path_ne hnd3 hg h)
  obtain ⟨a1, a2⟩ := writeFold_frame failures (get_update_diff fw proj comps).files_to_add
    hadd (⟨proj, [], []⟩ : WriteOut)
  obtain ⟨u1, u2⟩ := writeFold_frame failures (get_update_diff fw proj comps).files_to_update
    hupd ⟨((get_update_diff fw proj comps).files_to_add.foldl (writeStep failures)
      ⟨proj, [], []⟩).proj, [], []⟩
  obtain ⟨r1, r2⟩ := resolveFold_progress resolutions failures
    (diff_conf_paths_nodup fw proj comps hnd3) h hres hf
    ⟨((get_update_diff fw proj comps).files_to_update.foldl (writeStep failures)
      ⟨((get_update_diff fw proj comps).files_to_add.foldl (writeStep failures)
        ⟨proj, [], []⟩).proj, [], []⟩).proj, [], [], []⟩
  exact ⟨r1, fun hh => r2 hh⟩

theorem applyCore_conf_skip_frame (fw : Framework) (proj : Project)
    (comps : Option (List String)) (resolutions : List (LPath × Resolution))
    (failures : List LPath)
    (hnd1 : (fw.templates.map Prod.fst).Nodup) (hnd2 : (fw.macros.map Prod.fst).Nodup)
    (hnd3 : (fw.question_packs.map Prod.fst).Nodup) {c : Conflict}
    (h : c ∈ (get_update_diff fw proj comps).conflicts)
    (hres : resolvedAs resolutions c ≠ .use_framework) :
    lookupFile (applyCore fw proj comps resolutions failures) c.file_path
      = lookupFile proj c.file_path ∧
    registryLookup (applyCore fw proj comps resolutions failures) c.file_path
      = registryLookup proj c.file_path := by
  refine applyCore_frame fw proj comps resolutions failures ?_ ?_ ?_
  · intro g hg hp
    exact absurd hp (diff_add_conf_path_ne hnd3 hg h)
  · intro g hg hp
    exact absurd hp (diff_upd_conf_path_ne hnd3 hg h)
  · intro g hg hp hgres
    exfalso
    have := List.inj_on_of_nodup_map (diff_conf_paths_nodup fw proj comps hnd3) hg h hp
    rw [this] at hgres
    exact hres hgres

end Ldf
namespace Ldf

/-! ## The claims -/

/-- C9: `compute_file_checksum`, which streams a file in fixed-size
8192-byte chunks, computes for every byte content exactly the hex digest
of SHA-256 applied to the full content at once — the chunked
implementation equals the whole-content reference, so identical byte
contents always yield identical digests across repeated calls. -/
theorem C9_chunked_checksum_refines_whole (content : List Nat) :
    compute_file_checksum content = sha256hex content := by
  have h : (chunked 8192 content).flatten = content := chunked_join 8191 content
  unfold compute_file_checksum HashlibSha256.hexdigest
  rw [foldl_push_fed]
  simp only [List.nil_append]
  rw [h]

/-- C1: for every canonical question-pack file considered by diff: absent
locally means `files_to_add`; a project digest equal to the canonical
digest means `files_unchanged`; otherwise `files_to_update` when the
registry has no entry or the entry equals the project digest, and a
conflict when the registry entry exists and differs from the project
digest. -/
theorem C1_pack_classification (fw : Framework) (proj : Project)
    (comps : Option (List String)) (e : String × Content)
    (he : e ∈ fw.question_packs) (hc : qpCat ∈ comps.getD allComponents) :
    (lookupFile proj [qpCat, e.1] = none →
      (⟨[qpCat, e.1], e.2⟩ : FileChange) ∈ (get_update_diff fw proj comps).files_to_add) ∧
    (∀ c, lookupFile proj [qpCat, e.1] = some c →
      (compute_file_checksum c = compute_file_checksum e.2 →
        [qpCat, e.1] ∈ (get_update_diff fw proj comps).files_unchanged) ∧
      (compute_file_checksum c ≠ compute_file_checksum e.2 →
        ((registryLookup proj [qpCat, e.1] = none ∨
          registryLookup proj [qpCat, e.1] = some (compute_file_checksum c)) →
          (⟨[qpCat, e.1], e.2⟩ : FileChange)
            ∈ (get_update_diff fw proj comps).files_to_update) ∧
        (∀ r, registryLookup proj [qpCat, e.1] = some r →
          r ≠ compute_file_checksum c →
          (⟨[qpCat, e.1], c, e.2, r⟩ : Conflict)
            ∈ (get_update_diff fw proj comps).conflicts))) := by
  refine ⟨?_, ?_⟩
  · intro hn
    exact mem_whole_add_qp hc
      ((diffOf_add_spec _ _ _ _).mpr ⟨e, he, classifyPack_of_none hn, rfl⟩)
  · intro c hsome
    refine ⟨?_, ?_⟩
    · intro hd
      exact mem_whole_unch_qp hc
        ((diffOf_unch_spec _ _ _ _).mpr ⟨e, he, classifyPack_of_same hsome hd, rfl⟩)
    · intro hd
      refine ⟨?_, ?_⟩
      · rintro (hr | hr)
        · exact mem_whole_upd_qp hc
            ((diffOf_upd_spec _ _ _ _).mpr ⟨e, he, classifyPack_of_upd_none hsome hd hr, rfl⟩)
        · exact mem_whole_upd_qp hc
            ((diffOf_upd_spec _ _ _ _).mpr ⟨e, he, classifyPack_of_upd_match hsome hd hr, rfl⟩)
      · intro r hr hne
        exact mem_whole_conf_qp hc
          ((diffOf_conf_spec _ _ _ _).mpr
            ⟨e, he, c, r, classifyPack_of_conflict hsome hd hr hne, rfl⟩)

/-- Witness for C1 at a concrete input: a freshly-missing question pack is
classified `files_to_add`. -/
theorem C1_pack_classification_witness :
    (⟨[qpCat, secYaml], byteA⟩ : FileChange)
      ∈ (get_update_diff fwPack projEmpty none).files_to_add :=
  (C1_pack_classification fwPack projEmpty none (secYaml, byteA)
    (by simp [fwPack]) (by simp [allComponents])).1 rfl

end Ldf
namespace Ldf

/-- C3: the classifier reports `Corrupted` whenever `invalid_files` is
non-empty (empty YAML, parse error, not a mapping, or `.ldf` not a
directory), even when `missing_files` is also non-empty; it reports
`Partial` (modelled by `incomplete`) whenever `missing_files` is non-empty
and `invalid_files` is empty; the version-derived states
(`Current`/`Outdated`/`Legacy`) are only reached when both lists are
empty. -/
theorem C3_state_priority (installed : String) (ldf : LdfNode) :
    ((detect_project_state installed ldf).invalid_files ≠ [] →
      (detect_project_state installed ldf).state = .corrupted) ∧
    ((detect_project_state installed ldf).invalid_files = [] →
      (detect_project_state installed ldf).missing_files ≠ [] →
      (detect_project_state installed ldf).state = .incomplete) ∧
    ((detect_project_state installed ldf).state = .current ∨
     (detect_project_state installed ldf).state = .outdated ∨
     (detect_project_state installed ldf).state = .legacy →
      (detect_project_state installed ldf).missing_files = [] ∧
      (detect_project_state installed ldf).invalid_files = []) := by
  cases ldf with
  | absent => simp [detect_project_state]
  | plainFile => simp [detect_project_state]
  | directory d =>
    simp only [detect_project_state]
    cases hinv : (yamlInvalid d cfgName ++ yamlInvalid d grdName
        ++ (check_ldf_completeness d).2).isEmpty with
    | false =>
      simp only [Bool.false_eq_true, if_false]
      refine ⟨fun _ => by simp, fun h _ => ?_, fun h => ?_⟩
      · exfalso
        rw [h] at hinv
        simp at hinv
      · exfalso
        rcases h with h | h | h <;> simp at h
    | true =>
      simp only [if_true]
      cases hmis : ((check_ldf_completeness d).1).isEmpty with
      | false =>
        simp only [Bool.false_eq_true, if_false]
        refine ⟨fun h => ?_, fun _ _ => by simp, fun h => ?_⟩
        · exfalso
          rw [List.isEmpty_iff] at hinv
          exact h hinv
        · exfalso
          rcases h with h | h | h <;> simp at h
      | true =>
        have hinv2 := List.isEmpty_iff.mp hinv
        have hmis2 := List.isEmpty_iff.mp hmis
        simp only [if_true]
        cases hv : configVersion d with
        | none =>
          refine ⟨fun h => absurd hinv2 h, fun _ h => absurd hmis2 h,
            fun _ => ⟨hmis2, hinv2⟩⟩
        | some v =>
          simp only []
          by_cases hveq : v = installed
          · rw [if_pos hveq]
            exact ⟨fun h => absurd hinv2 h, fun _ h => absurd hmis2 h,
              fun _ => ⟨hmis2, hinv2⟩⟩
          · rw [if_neg hveq]
            exact ⟨fun h => absurd hinv2 h, fun _ h => absurd hmis2 h,
              fun _ => ⟨hmis2, hinv2⟩⟩

/-- Witness for C3 at a concrete input: a `.ldf` directory whose
`config.yaml` fails to parse (and which is missing everything else) is
classified `Corrupted`, even though `missing_files` is non-empty too. -/
theorem C3_state_priority_witness :
    (detect_project_state verNew (.directory ldfDirBadConfig)).state
      = ProjectState.corrupted :=
  (C3_state_priority verNew (.directory ldfDirBadConfig)).1 (by decide)

end Ldf
namespace Ldf

/-- C10: `check_for_updates` never raises on degenerate projects: with no
`.ldf` directory it returns current version `0.0.0` and an empty
updatable-components list; for an initialized project whose config lacks a
`framework_version` field it returns current version `0.0.0` with
`has_updates = true` (the installed version being a real version, not
`0.0.0`). -/
theorem C10_check_updates_degenerate (fw : Framework) :
    ((check_for_updates fw none).current_version = zeroVersion ∧
     (check_for_updates fw none).updatable_components = []) ∧
    (∀ p : Project, fw.version ≠ zeroVersion → p.config.framework_version = none →
      (check_for_updates fw (some p)).current_version = zeroVersion ∧
      (check_for_updates fw (some p)).has_updates = true) := by
  refine ⟨⟨rfl, rfl⟩, ?_⟩
  intro p hfw hnone
  constructor
  · simp [check_for_updates, hnone]
  · simp only [check_for_updates, hnone, Option.getD_none, decide_eq_true_eq]
    exact fun h => hfw h.symm

/-- Witness for C10 at a concrete input: a project whose config lacks the
version field reports `0.0.0` and available updates. -/
theorem C10_check_updates_degenerate_witness :
    (check_for_updates fwPack (some projEmpty)).current_version = zeroVersion ∧
    (check_for_updates fwPack (some projEmpty)).has_updates = true :=
  (C10_check_updates_degenerate fwPack).2 projEmpty (by decide) rfl

/-! Additional decomposition facts about `files_unchanged`, used by the
always-overwrite and conflict claims. -/

theorem diffOf_unch_head {cat : String} {cls : (String × Content) → FileClass}
    {entries : List (String × Content)} {q : LPath}
    (h : q ∈ (diffOf cat cls entries).files_unchanged) : q.head? = some cat := by
  obtain ⟨e, _, _, rfl⟩ := (diffOf_unch_spec cat cls entries q).mp h
  rfl

theorem diff_unch_cases {fw : Framework} {proj : Project} {comps : Option (List String)}
    {q : LPath} (h : q ∈ (get_update_diff fw proj comps).files_unchanged) :
    q ∈ (diffOf tplCat (classifyAlways proj tplCat) fw.templates).files_unchanged ∨
    q ∈ (diffOf macCat (classifyAlways proj macCat) fw.macros).files_unchanged ∨
    q ∈ (diffOf qpCat (classifyPack proj) fw.question_packs).files_unchanged := by
  rw [diff_unch_eq] at h
  rcases List.mem_append.mp h with h | h
  · rcases List.mem_append.mp h with h | h
    · rcases Decidable.em (tplCat ∈ comps.getD allComponents) with hp | hp
      · rw [if_pos hp] at h; exact Or.inl h
      · rw [if_neg hp] at h; cases h
    · rcases Decidable.em (macCat ∈ comps.getD allComponents) with hp | hp
      · rw [if_pos hp] at h; exact Or.inr (Or.inl h)
      · rw [if_neg hp] at h; cases h
  · rcases Decidable.em (qpCat ∈ comps.getD allComponents) with hp | hp
    · rw [if_pos hp] at h; exact Or.inr (Or.inr h)
    · rw [if_neg hp] at h; cases h

theorem diffOf_unch_path_class {cat : String} {cls : (String × Content) → FileClass}
    {entries : List (String × Content)} (hnd : (entries.map Prod.fst).Nodup)
    {q : LPath} (h : q ∈ (diffOf cat cls entries).files_unchanged)
    {e : String × Content} (he : e ∈ entries) (hp : q = [cat, e.1]) :
    cls e = .unchanged := by
  obtain ⟨e2, he2, hcls, rfl⟩ := (diffOf_unch_spec cat cls entries q).mp h
  have h1 : e2.1 = e.1 := by
    have h2 := hp
    simp at h2
    exact h2
  rw [nodup_keys_inj hnd he he2 h1.symm]
  exact hcls

/-- C2 counterexample: a canonical template whose project copy is
byte-identical to the canonical content is classified `files_unchanged`,
not `files_to_update` — refuting "files_to_update when present locally
with any content". -/
theorem C2_counterexample :
    lookupFile projTplSame [tplCat, reqMdName] = some byteA ∧
    (get_update_diff fwTpl projTplSame (some [tplCat])).files_to_update = [] ∧
    [tplCat, reqMdName]
      ∈ (get_update_diff fwTpl projTplSame (some [tplCat])).files_unchanged := by
  refine ⟨rfl, ?_, ?_⟩ <;> decide

/-- C2 amended: template and macro files never conflict — every conflict
the diff emits is a question-pack path; a canonical template/macro file is
`files_to_add` when absent locally, `files_to_update` when present with a
digest differing from the canonical digest, and `files_unchanged` when
the digests agree. -/
theorem C2_always_overwrite (fw : Framework) (proj : Project)
    (comps : Option (List String)) :
    (∀ c ∈ (get_update_diff fw proj comps).conflicts, c.file_path.head? = some qpCat) ∧
    (∀ e ∈ fw.templates, tplCat ∈ comps.getD allComponents →
      (lookupFile proj [tplCat, e.1] = none →
        (⟨[tplCat, e.1], e.2⟩ : FileChange)
          ∈ (get_update_diff fw proj comps).files_to_add) ∧
      (∀ c, lookupFile proj [tplCat, e.1] = some c →
        (compute_file_checksum c ≠ compute_file_checksum e.2 →
          (⟨[tplCat, e.1], e.2⟩ : FileChange)
            ∈ (get_update_diff fw proj comps).files_to_update) ∧
        (compute_file_checksum c = compute_file_checksum e.2 →
          [tplCat, e.1] ∈ (get_update_diff fw proj comps).files_unchanged))) ∧
    (∀ e ∈ fw.macros, macCat ∈ comps.getD allComponents →
      (lookupFile proj [macCat, e.1] = none →
        (⟨[macCat, e.1], e.2⟩ : FileChange)
          ∈ (get_update_diff fw proj comps).files_to_add) ∧
      (∀ c, lookupFile proj [macCat, e.1] = some c →
        (compute_file_checksum c ≠ compute_file_checksum e.2 →
          (⟨[macCat, e.1], e.2⟩ : FileChange)
            ∈ (get_update_diff fw proj comps).files_to_update) ∧
        (compute_file_checksum c = compute_file_checksum e.2 →
          [macCat, e.1] ∈ (get_update_diff fw proj comps).files_unchanged))) := by
  refine ⟨?_, ?_, ?_⟩
  · intro c hc
    obtain ⟨_, hq⟩ := diff_conf_from_packs hc
    exact diffOf_conf_head hq
  · intro e he hcomp
    refine ⟨?_, ?_⟩
    · intro hn
      exact mem_whole_add_tpl hcomp
        ((diffOf_add_spec _ _ _ _).mpr ⟨e, he, classifyAlways_of_none hn, rfl⟩)
    · intro c hsome
      refine ⟨?_, ?_⟩
      · intro hd
        exact mem_whole_upd_tpl hcomp
          ((diffOf_upd_spec _ _ _ _).mpr ⟨e, he, classifyAlways_of_diff hsome hd, rfl⟩)
      · intro hd
        exact mem_whole_unch_tpl hcomp
          ((diffOf_unch_spec _ _ _ _).mpr ⟨e, he, classifyAlways_of_same hsome hd, rfl⟩)
  · intro e he hcomp
    refine ⟨?_, ?_⟩
    · intro hn
      exact mem_whole_add_mac hcomp
        ((diffOf_add_spec _ _ _ _).mpr ⟨e, he, classifyAlways_of_none hn, rfl⟩)
    · intro c hsome
      refine ⟨?_, ?_⟩
      · intro hd
        exact mem_whole_upd_mac hcomp
          ((diffOf_upd_spec _ _ _ _).mpr ⟨e, he, classifyAlways_of_diff hsome hd, rfl⟩)
      · intro hd
        exact mem_whole_unch_mac hcomp
          ((diffOf_unch_spec _ _ _ _).mpr ⟨e, he, classifyAlways_of_same hsome hd, rfl⟩)

/-- Witness for the amended C2 at a concrete input: the untouched template
is reported unchanged. -/
theorem C2_always_overwrite_witness :
    [tplCat, reqMdName]
      ∈ (get_update_diff fwTpl projTplSame (some [tplCat])).files_unchanged :=
  (((C2_always_overwrite fwTpl projTplSame (some [tplCat])).2.1 (reqMdName, byteA)
      (by simp [fwTpl]) (by simp)).2 byteA rfl).2 rfl

/-- C6 counterexample: a question pack edited by the user while the
framework canonical content is unchanged from the registry basis (the
registry entry equals the canonical digest and differs from the project
digest) is classified as a conflict, not `unchanged`. -/
theorem C6_counterexample :
    registryLookup projPackEdited [qpCat, secYaml] = some (compute_file_checksum byteA) ∧
    (get_update_diff fwPack projPackEdited (some [qpCat])).files_unchanged = [] ∧
    (⟨[qpCat, secYaml], byteB, byteA, compute_file_checksum byteA⟩ : Conflict)
      ∈ (get_update_diff fwPack projPackEdited (some [qpCat])).conflicts := by
  refine ⟨rfl, ?_, ?_⟩ <;> decide

/-- C6 amended: a question pack whose project copy was edited by the user
while the canonical digest equals the registry entry (and differs from the
project digest) is classified as a conflict carrying the stored registry
checksum, and not as `unchanged`; `unchanged` is reported only when the
project digest equals the canonical digest. -/
theorem C6_user_edit_conflict (fw : Framework) (proj : Project)
    (comps : Option (List String)) (e : String × Content) (c : Content)
    (hnd3 : (fw.question_packs.map Prod.fst).Nodup)
    (he : e ∈ fw.question_packs) (hc : qpCat ∈ comps.getD allComponents)
    (hsome : lookupFile proj [qpCat, e.1] = some c)
    (hr : registryLookup proj [qpCat, e.1] = some (compute_file_checksum e.2))
    (hd : compute_file_checksum c ≠ compute_file_checksum e.2) :
    (⟨[qpCat, e.1], c, e.2, compute_file_checksum e.2⟩ : Conflict)
      ∈ (get_update_diff fw proj comps).conflicts ∧
    [qpCat, e.1] ∉ (get_update_diff fw proj comps).files_unchanged := by
  have hcls : classifyPack proj e = .conflicting c (compute_file_checksum e.2) :=
    classifyPack_of_conflict hsome hd hr (fun hx => hd hx.symm)
  constructor
  · exact mem_whole_conf_qp hc
      ((diffOf_conf_spec _ _ _ _).mpr ⟨e, he, c, compute_file_checksum e.2, hcls, rfl⟩)
  · intro hmem
    rcases diff_unch_cases hmem with hpart | hpart | hpart
    · have := diffOf_unch_head hpart
      simp at this
      exact absurd this (by decide)
    · have := diffOf_unch_head hpart
      simp at this
      exact absurd this (by decide)
    · have h2 := diffOf_unch_path_class hnd3 hpart he rfl
      rw [hcls] at h2
      cases h2

/-- Witness for the amended C6 at a concrete input: the edited pack with a
registry entry equal to the canonical digest lands in `conflicts`. -/
theorem C6_user_edit_conflict_witness :
    (⟨[qpCat, secYaml], byteB, byteA, compute_file_checksum byteA⟩ : Conflict)
      ∈ (get_update_diff fwPack projPackEdited (some [qpCat])).conflicts :=
  (C6_user_edit_conflict fwPack projPackEdited (some [qpCat]) (secYaml, byteA) byteB
    (by simp [fwPack]) (by simp [fwPack]) (by simp) rfl rfl (by decide)).1

end Ldf

namespace Ldf

/-! ## Lemmas: the diff and the result summary read nothing outside the
managed categories -/

theorem classifyAlways_congr {p1 p2 : Project} (cat : String) (e : String × Content)
    (h : lookupFile p1 [cat, e.1] = lookupFile p2 [cat, e.1]) :
    classifyAlways p1 cat e = classifyAlways p2 cat e := by
  unfold classifyAlways
  rw [h]

theorem classifyPack_congr {p1 p2 : Project} (e : String × Content)
    (hf : lookupFile p1 [qpCat, e.1] = lookupFile p2 [qpCat, e.1])
    (hr : registryLookup p1 [qpCat, e.1] = registryLookup p2 [qpCat, e.1]) :
    classifyPack p1 e = classifyPack p2 e := by
  unfold classifyPack
  rw [hf, hr]

theorem diffOf_congr (cat : String) {cls1 cls2 : (String × Content) → FileClass}
    (entries : List (String × Content)) (h : ∀ e ∈ entries, cls1 e = cls2 e) :
    diffOf cat cls1 entries = diffOf cat cls2 entries := by
  unfold diffOf
  congr 1 <;> apply List.filterMap_congr <;> intro e he <;> rw [h e he]

theorem get_update_diff_congr (fw : Framework) {p1 p2 : Project}
    (comps : Option (List String)) (hcfg : p1.config = p2.config)
    (hfiles : ∀ q : LPath, q.head? = some tplCat ∨ q.head? = some macCat ∨
      q.head? = some qpCat → lookupFile p1 q = lookupFile p2 q) :
    get_update_diff fw p1 comps = get_update_diff fw p2 comps := by
  have hreg : ∀ q : LPath, registryLookup p1 q = registryLookup p2 q := by
    intro q
    unfold registryLookup
    rw [hcfg]
  unfold get_update_diff
  have h1 : diffOf tplCat (classifyAlways p1 tplCat) fw.templates
      = diffOf tplCat (classifyAlways p2 tplCat) fw.templates :=
    diffOf_congr tplCat fw.templates
      (fun e _ => classifyAlways_congr tplCat e (hfiles _ (Or.inl rfl)))
  have h2 : diffOf macCat (classifyAlways p1 macCat) fw.macros
      = diffOf macCat (classifyAlways p2 macCat) fw.macros :=
    diffOf_congr macCat fw.macros
      (fun e _ => classifyAlways_congr macCat e (hfiles _ (Or.inr (Or.inl rfl))))
  have h3 : diffOf qpCat (classifyPack p1) fw.question_packs
      = diffOf qpCat (classifyPack p2) fw.question_packs :=
    diffOf_congr qpCat fw.question_packs
      (fun e _ => classifyPack_congr e (hfiles _ (Or.inr (Or.inr rfl))) (hreg _))
  rw [h1, h2, h3]

/-- The full shape of a non-dry-run apply result, as a function of the
diff, the resolutions and the fault set alone. -/
theorem apply_result_shape (fw : Framework) (proj : Project) (comps : Option (List String))
    (resolutions : List (LPath × Resolution)) (failures : List LPath) (now : String) :
    (apply_updates fw proj comps resolutions false failures now).2 =
      { success := (badPaths failures (get_update_diff fw proj comps).files_to_add
            ++ (badPaths failures (get_update_diff fw proj comps).files_to_update
            ++ confBad resolutions failures (get_update_diff fw proj comps).conflicts)).isEmpty
      , files_added := okPaths failures (get_update_diff fw proj comps).files_to_add
      , files_updated := okPaths failures (get_update_diff fw proj comps).files_to_update
          ++ confWritten resolutions failures (get_update_diff fw proj comps).conflicts
      , files_skipped := confSkipped resolutions (get_update_diff fw proj comps).conflicts
      , errors := badPaths failures (get_update_diff fw proj comps).files_to_add
          ++ (badPaths failures (get_update_diff fw proj comps).files_to_update
          ++ confBad resolutions failures (get_update_diff fw proj comps).conflicts) } := by
  unfold apply_updates
  simp only [Bool.false_eq_true, if_false, writeFold_ok, writeFold_bad, resolveFold_written,
    resolveFold_skipped, resolveFold_bad, List.nil_append, List.append_assoc]

/-- C5: for every file under the project's `specs/` or `answerpacks/`
subtrees, its content is identical after `apply_updates` runs, for any
components, resolutions, dry-run flag and fault set; and `apply_updates`
reads nothing under those subtrees — two projects that agree outside them
(and on the config document) produce the same diff and the same result
summary. -/
theorem C5_user_data_isolation (fw : Framework) (proj : Project)
    (comps : Option (List String)) (resolutions : List (LPath × Resolution))
    (dry : Bool) (failures : List LPath) (now : String) :
    (∀ q : LPath, q.head? = some specsDir ∨ q.head? = some answerpacksDir →
      lookupFile (apply_updates fw proj comps resolutions dry failures now).1 q
        = lookupFile proj q) ∧
    (∀ proj2 : Project, proj2.config = proj.config →
      (∀ q : LPath, ¬(q.head? = some specsDir ∨ q.head? = some answerpacksDir) →
        lookupFile proj2 q = lookupFile proj q) →
      get_update_diff fw proj2 comps = get_update_diff fw proj comps ∧
      (apply_updates fw proj2 comps resolutions dry failures now).2
        = (apply_updates fw proj comps resolutions dry failures now).2) := by
  constructor
  · intro q hq
    cases dry with
    | true => rfl
    | false =>
      rw [apply_fst_lookup]
      have h1 : q.head? ≠ some tplCat := by
        rcases hq with hq | hq <;> rw [hq] <;> simp <;> decide
      have h2 : q.head? ≠ some macCat := by
        rcases hq with hq | hq <;> rw [hq] <;> simp <;> decide
      have h3 : q.head? ≠ some qpCat := by
        rcases hq with hq | hq <;> rw [hq] <;> simp <;> decide
      exact (applyCore_frame_unmanaged fw proj comps resolutions failures h1 h2 h3).1
  · intro proj2 hcfg hfiles
    have hd : get_update_diff fw proj2 comps = get_update_diff fw proj comps := by
      refine get_update_diff_congr fw comps hcfg ?_
      intro q hq
      refine hfiles q ?_
      rintro (hs | hs) <;> rcases hq with hq | hq | hq <;> rw [hq] at hs <;>
        simp at hs <;> exact absurd hs (by decide)
    refine ⟨hd, ?_⟩
    cases dry with
    | true =>
      simp [apply_updates, hd]
    | false =>
      rw [apply_result_shape, apply_result_shape, hd]

end Ldf

namespace Ldf

/-- Witness for C5 at a concrete input: a user spec file is untouched by a
full apply. -/
theorem C5_user_data_isolation_witness :
    lookupFile (apply_updates fwTpl projSpec none [] false [] nowStamp).1
        [specsDir, reqMdName]
      = lookupFile projSpec [specsDir, reqMdName] :=
  (C5_user_data_isolation fwTpl projSpec none [] false [] nowStamp).1
    [specsDir, reqMdName] (Or.inl rfl)

/-- C8: `apply_updates` returns `success = true` exactly when its error
list is empty; an I/O failure on a single write is collected into the
errors without counting that file as added or updated; files whose write
does not fail are still written even when other files in the batch fail
(best-effort, no rollback); and when no write fails the config's version
field is set to the installed version and an update timestamp is
recorded. -/
theorem C8_failure_semantics (fw : Framework) (proj : Project)
    (comps : Option (List String)) (resolutions : List (LPath × Resolution))
    (failures : List LPath) (now : String)
    (hnd1 : (fw.templates.map Prod.fst).Nodup) (hnd2 : (fw.macros.map Prod.fst).Nodup)
    (hnd3 : (fw.question_packs.map Prod.fst).Nodup) :
    ((apply_updates fw proj comps resolutions false failures now).2.success
      = (apply_updates fw proj comps resolutions false failures now).2.errors.isEmpty) ∧
    (∀ fc ∈ (get_update_diff fw proj comps).files_to_add, fc.path ∈ failures →
      fc.path ∈ (apply_updates fw proj comps resolutions false failures now).2.errors ∧
      fc.path ∉ (apply_updates fw proj comps resolutions false failures now).2.files_added ∧
      fc.path ∉ (apply_updates fw proj comps resolutions false failures now).2.files_updated) ∧
    (∀ fc ∈ (get_update_diff fw proj comps).files_to_update, fc.path ∈ failures →
      fc.path ∈ (apply_updates fw proj comps resolutions false failures now).2.errors ∧
      fc.path ∉ (apply_updates fw proj comps resolutions false failures now).2.files_added ∧
      fc.path ∉ (apply_updates fw proj comps resolutions false failures now).2.files_updated) ∧
    (∀ fc ∈ (get_update_diff fw proj comps).files_to_add, fc.path ∉ failures →
      lookupFile (apply_updates fw proj comps resolutions false failures now).1 fc.path
        = some fc.content) ∧
    (∀ fc ∈ (get_update_diff fw proj comps).files_to_update, fc.path ∉ failures →
      lookupFile (apply_updates fw proj comps resolutions false failures now).1 fc.path
        = some fc.content) ∧
    ((apply_updates fw proj comps resolutions false failures now).2.errors = [] →
      (apply_updates fw proj comps resolutions false failures now).1.config.framework_version
        = some fw.version ∧
      (apply_updates fw proj comps resolutions false failures now).1.config.framework_updated
        = some now) := by
  refine ⟨apply_success_eq fw proj comps resolutions failures now, ?_, ?_, ?_, ?_,
    apply_fst_version_of_no_errors fw proj comps resolutions failures now⟩
  · intro fc hfc hmem
    refine ⟨?_, ?_, ?_⟩
    · rw [apply_errors_eq]
      exact List.mem_append.mpr (Or.inl (mem_badPaths.mpr ⟨⟨fc, hfc, rfl⟩, hmem⟩))
    · rw [apply_added_eq]
      intro hok
      exact absurd hmem (mem_okPaths.mp hok).2
    · rw [apply_updated_eq]
      intro hok
      rcases List.mem_append.mp hok with hok | hok
      · exact absurd hmem (mem_okPaths.mp hok).2
      · obtain ⟨g, hg, hp2, hres, hnf⟩ := mem_confWritten.mp hok
        exact absurd hmem hnf
  · intro fc hfc hmem
    refine ⟨?_, ?_, ?_⟩
    · rw [apply_errors_eq]
      exact List.mem_append.mpr
        (Or.inr (List.mem_append.mpr (Or.inl (mem_badPaths.mpr ⟨⟨fc, hfc, rfl⟩, hmem⟩))))
    · rw [apply_added_eq]
      intro hok
      exact absurd hmem (mem_okPaths.mp hok).2
    · rw [apply_updated_eq]
      intro hok
      rcases List.mem_append.mp hok with hok | hok
      · exact absurd hmem (mem_okPaths.mp hok).2
      · obtain ⟨g, hg, hp2, hres, hnf⟩ := mem_confWritten.mp hok
        exact absurd hmem hnf
  · intro fc hfc hmem
    rw [apply_fst_lookup]
    exact (applyCore_progress_add fw proj comps resolutions failures
      hnd1 hnd2 hnd3 hfc hmem).1
  · intro fc hfc hmem
    rw [apply_fst_lookup]
    exact (applyCore_progress_upd fw proj comps resolutions failures
      hnd1 hnd2 hnd3 hfc hmem).1

/-- Witness for C8 at a concrete input: with the single canonical template
made to fail, success equals emptiness of the error list. -/
theorem C8_failure_semantics_witness :
    (apply_updates fwTpl projEmpty none [] false [[tplCat, reqMdName]] nowStamp).2.success
      = (apply_updates fwTpl projEmpty none [] false
          [[tplCat, reqMdName]] nowStamp).2.errors.isEmpty :=
  (C8_failure_semantics fwTpl projEmpty none [] [[tplCat, reqMdName]] nowStamp
    (by simp [fwTpl]) (by simp [fwTpl]) (by simp [fwTpl])).1

end Ldf
namespace Ldf

/-- C4: in apply, every conflict is resolved by the caller-supplied
resolution for its path, defaulting to skip when none is given;
`use_framework` writes the canonical content (the project file becomes
byte-identical to the canonical source) and refreshes the registry entry
to the new framework digest, while `keep_local` and `skip` leave both the
project file and the registry entry unchanged and record the file as
skipped. -/
theorem C4_conflict_resolution (fw : Framework) (proj : Project)
    (comps : Option (List String)) (resolutions : List (LPath × Resolution))
    (failures : List LPath) (now : String)
    (hnd1 : (fw.templates.map Prod.fst).Nodup) (hnd2 : (fw.macros.map Prod.fst).Nodup)
    (hnd3 : (fw.question_packs.map Prod.fst).Nodup) (c : Conflict)
    (hc : c ∈ (get_update_diff fw proj comps).conflicts)
    (hf : c.file_path ∉ failures) :
    ((alookup c.file_path resolutions).getD .skip = .use_framework →
      lookupFile (apply_updates fw proj comps resolutions false failures now).1 c.file_path
        = some c.framework_content ∧
      registryLookup (apply_updates fw proj comps resolutions false failures now).1
          c.file_path
        = some (compute_file_checksum c.framework_content)) ∧
    ((alookup c.file_path resolutions).getD .skip ≠ .use_framework →
      lookupFile (apply_updates fw proj comps resolutions false failures now).1 c.file_path
        = lookupFile proj c.file_path ∧
      registryLookup (apply_updates fw proj comps resolutions false failures now).1
          c.file_path
        = registryLookup proj c.file_path ∧
      c.file_path
        ∈ (apply_updates fw proj comps resolutions false failures now).2.files_skipped) := by
  have hhead : c.file_path.head? = some qpCat := by
    obtain ⟨_, hq⟩ := diff_conf_from_packs hc
    exact diffOf_conf_head hq
  constructor
  · intro hres
    have hres2 : resolvedAs resolutions c = .use_framework := hres
    obtain ⟨h1, h2⟩ := applyCore_progress_conf fw proj comps resolutions failures
      hnd1 hnd2 hnd3 hc hres2 hf
    rw [apply_fst_lookup, apply_fst_registry]
    exact ⟨h1, h2 hhead⟩
  · intro hres
    have hres2 : resolvedAs resolutions c ≠ .use_framework := hres
    obtain ⟨h1, h2⟩ := applyCore_conf_skip_frame fw proj comps resolutions failures
      hnd1 hnd2 hnd3 hc hres2
    rw [apply_fst_lookup, apply_fst_registry, apply_skipped_eq]
    exact ⟨h1, h2, mem_confSkipped.mpr ⟨c, hc, rfl, hres2⟩⟩

/-- Witness for C4 at a concrete input: with no resolution supplied, the
conflicted pack defaults to skip — the project file, the registry entry
and the skipped list all reflect it. -/
theorem C4_conflict_resolution_witness :
    lookupFile (apply_updates fwPack projPackEdited (some [qpCat]) [] false [] nowStamp).1
        [qpCat, secYaml]
      = lookupFile projPackEdited [qpCat, secYaml] ∧
    [qpCat, secYaml]
      ∈ (apply_updates fwPack projPackEdited (some [qpCat]) [] false []
          nowStamp).2.files_skipped :=
  have h := (C4_conflict_resolution fwPack projPackEdited (some [qpCat]) [] [] nowStamp
    (by simp [fwPack]) (by simp [fwPack]) (by simp [fwPack])
    ⟨[qpCat, secYaml], byteB, byteA, compute_file_checksum byteA⟩
    (by decide) (by simp)).2 (by decide)
  ⟨h.1, h.2.2⟩

end Ldf
namespace Ldf

/-! ## Lemmas: a written path pins the classification of its entry -/

theorem whole_add_path_class_tpl {fw : Framework} {proj : Project}
    {comps : Option (List String)} (hnd1 : (fw.templates.map Prod.fst).Nodup)
    {g : FileChange} (hg : g ∈ (get_update_diff fw proj comps).files_to_add)
    {e : String × Content} (he : e ∈ fw.templates) (hp : g.path = [tplCat, e.1]) :
    classifyAlways proj tplCat e = .toAdd := by
  rcases diff_add_cases hg with h | h | h
  · exact diffOf_add_path_class hnd1 h he hp
  · exfalso
    have h2 := diffOf_add_head h
    rw [hp] at h2
    simp at h2
    exact absurd h2 (by decide)
  · exfalso
    have h2 := diffOf_add_head h
    rw [hp] at h2
    simp at h2
    exact absurd h2 (by decide)

theorem whole_add_path_class_mac {fw : Framework} {proj : Project}
    {comps : Option (List String)} (hnd2 : (fw.macros.map Prod.fst).Nodup)
    {g : FileChange} (hg : g ∈ (get_update_diff fw proj comps).files_to_add)
    {e : String × Content} (he : e ∈ fw.macros) (hp : g.path = [macCat, e.1]) :
    classifyAlways proj macCat e = .toAdd := by
  rcases diff_add_cases hg with h | h | h
  · exfalso
    have h2 := diffOf_add_head h
    rw [hp] at h2
    simp at h2
    exact absurd h2 (by decide)
  · exact diffOf_add_path_class hnd2 h he hp
  · exfalso
    have h2 := diffOf_add_head h
    rw [hp] at h2
    simp at h2
    exact absurd h2 (by decide)

theorem whole_add_path_class_qp {fw : Framework} {proj : Project}
    {comps : Option (List String)} (hnd3 : (fw.question_packs.map Prod.fst).Nodup)
    {g : FileChange} (hg : g ∈ (get_update_diff fw proj comps).files_to_add)
    {e : String × Content} (he : e ∈ fw.question_packs) (hp : g.path = [qpCat, e.1]) :
    classifyPack proj e = .toAdd := by
  rcases diff_add_cases hg with h | h | h
  · exfalso
    have h2 := diffOf_add_head h
    rw [hp] at h2
    simp at h2
    exact absurd h2 (by decide)
  · exfalso
    have h2 := diffOf_add_head h
    rw [hp] at h2
    simp at h2
    exact absurd h2 (by decide)
  · exact diffOf_add_path_class hnd3 h he hp

theorem whole_upd_path_class_tpl {fw : Framework} {proj : Project}
    {comps : Option (List String)} (hnd1 : (fw.templates.map Prod.fst).Nodup)
    {g : FileChange} (hg : g ∈ (get_update_diff fw proj comps).files_to_update)
    {e : String × Content} (he : e ∈ fw.templates) (hp : g.path = [tplCat, e.1]) :
    classifyAlways proj tplCat e = .toUpdate := by
  rcases diff_upd_cases hg with h | h | h
  · exact diffOf_upd_path_class hnd1 h he hp
  · exfalso
    have h2 := diffOf_upd_head h
    rw [hp] at h2
    simp at h2
    exact absurd h2 (by decide)
  · exfalso
    have h2 := diffOf_upd_head h
    rw [hp] at h2
    simp at h2
    exact absurd h2 (by decide)

theorem whole_upd_path_class_mac {fw : Framework} {proj : Project}
    {comps : Option (List String)} (hnd2 : (fw.macros.map Prod.fst).Nodup)
    {g : FileChange} (hg : g ∈ (get_update_diff fw proj comps).files_to_update)
    {e : String × Content} (he : e ∈ fw.macros) (hp : g.path = [macCat, e.1]) :
    classifyAlways proj macCat e = .toUpdate := by
  rcases diff_upd_cases hg with h | h | h
  · exfalso
    have h2 := diffOf_upd_head h
    rw [hp] at h2
    simp at h2
    exact absurd h2 (by decide)
  · exact diffOf_upd_path_class hnd2 h he hp
  · exfalso
    have h2 := diffOf_upd_head h
    rw [hp] at h2
    simp at h2
    exact absurd h2 (by decide)

theorem whole_upd_path_class_qp {fw : Framework} {proj : Project}
    {comps : Option (List String)} (hnd3 : (fw.question_packs.map Prod.fst).Nodup)
    {g : FileChange} (hg : g ∈ (get_update_diff fw proj comps).files_to_update)
    {e : String × Content} (he : e ∈ fw.question_packs) (hp : g.path = [qpCat, e.1]) :
    classifyPack proj e = .toUpdate := by
  rcases diff_upd_cases hg with h | h | h
  · exfalso
    have h2 := diffOf_upd_head h
    rw [hp] at h2
    simp at h2
    exact absurd h2 (by decide)
  · exfalso
    have h2 := diffOf_upd_head h
    rw [hp] at h2
    simp at h2
    exact absurd h2 (by decide)
  · exact diffOf_upd_path_class hnd3 h he hp

theorem diffOf_fields_nil {cat : String} {cls : (String × Content) → FileClass}
    {entries : List (String × Content)} (h : ∀ e ∈ entries, cls e = .unchanged) :
    (diffOf cat cls entries).files_to_add = [] ∧
    (diffOf cat cls entries).files_to_update = [] ∧
    (diffOf cat cls entries).conflicts = [] := by
  unfold diffOf
  refine ⟨?_, ?_, ?_⟩ <;>
  · rw [List.filterMap_eq_nil]
    intro e he
    rw [h e he]

end Ldf
namespace Ldf

/-- C7: calling diff immediately after a fully-successful apply that had
no conflicts, over the same components, yields a diff with
`files_to_add`, `files_to_update` and `conflicts` all empty (only
`files_unchanged` may be non-empty). -/
theorem C7_idempotence (fw : Framework) (proj : Project) (comps : Option (List String))
    (resolutions : List (LPath × Resolution)) (now : String)
    (hnd1 : (fw.templates.map Prod.fst).Nodup) (hnd2 : (fw.macros.map Prod.fst).Nodup)
    (hnd3 : (fw.question_packs.map Prod.fst).Nodup)
    (hconf : (get_update_diff fw proj comps).conflicts = []) :
    (get_update_diff fw (apply_updates fw proj comps resolutions false [] now).1
      comps).files_to_add = [] ∧
    (get_update_diff fw (apply_updates fw proj comps resolutions false [] now).1
      comps).files_to_update = [] ∧
    (get_update_diff fw (apply_updates fw proj comps resolutions false [] now).1
      comps).conflicts = [] := by
  have htpl : tplCat ∈ comps.getD allComponents → ∀ e ∈ fw.templates,
      classifyAlways (apply_updates fw proj comps resolutions false [] now).1 tplCat e
        = .unchanged := by
    intro hcomp e he
    cases hcls : classifyAlways proj tplCat e with
    | toAdd =>
      have hmem : (⟨[tplCat, e.1], e.2⟩ : FileChange)
          ∈ (get_update_diff fw proj comps).files_to_add :=
        mem_whole_add_tpl hcomp ((diffOf_add_spec _ _ _ _).mpr ⟨e, he, hcls, rfl⟩)
      have hprog := applyCore_progress_add fw proj comps resolutions []
        hnd1 hnd2 hnd3 hmem (by simp)
      have hlook : lookupFile (apply_updates fw proj comps resolutions false [] now).1
          [tplCat, e.1] = some e.2 := by
        rw [apply_fst_lookup]
        exact hprog.1
      exact classifyAlways_of_same hlook rfl
    | toUpdate =>
      have hmem : (⟨[tplCat, e.1], e.2⟩ : FileChange)
          ∈ (get_update_diff fw proj comps).files_to_update :=
        mem_whole_upd_tpl hcomp ((diffOf_upd_spec _ _ _ _).mpr ⟨e, he, hcls, rfl⟩)
      have hprog := applyCore_progress_upd fw proj comps resolutions []
        hnd1 hnd2 hnd3 hmem (by simp)
      have hlook : lookupFile (apply_updates fw proj comps resolutions false [] now).1
          [tplCat, e.1] = some e.2 := by
        rw [apply_fst_lookup]
        exact hprog.1
      exact classifyAlways_of_same hlook rfl
    | unchanged =>
      obtain ⟨c, hcl, hdig⟩ := classifyAlways_unchanged_inv hcls
      have hadd : ∀ g ∈ (get_update_diff fw proj comps).files_to_add,
          g.path = [tplCat, e.1] → g.path ∈ ([] : List LPath) := by
        intro g hg hp
        exfalso
        have h2 := whole_add_path_class_tpl hnd1 hg he hp
        rw [hcls] at h2
        cases h2
      have hupd : ∀ g ∈ (get_update_diff fw proj comps).files_to_update,
          g.path = [tplCat, e.1] → g.path ∈ ([] : List LPath) := by
        intro g hg hp
        exfalso
        have h2 := whole_upd_path_class_tpl hnd1 hg he hp
        rw [hcls] at h2
        cases h2
      have hcnf : ∀ c2 ∈ (get_update_diff fw proj comps).conflicts,
          c2.file_path = [tplCat, e.1] →
          resolvedAs resolutions c2 = .use_framework → c2.file_path ∈ ([] : List LPath) := by
        intro c2 hc2 _ _
        rw [hconf] at hc2
        cases hc2
      obtain ⟨hf1, _⟩ := @applyCore_frame fw proj comps resolutions [] [tplCat, e.1]
        hadd hupd hcnf
      have hlook : lookupFile (apply_updates fw proj comps resolutions false [] now).1
          [tplCat, e.1] = some c := by
        rw [apply_fst_lookup, hf1, hcl]
      exact classifyAlways_of_same hlook hdig
    | conflicting lc st =>
      exact absurd hcls (classifyAlways_ne_conflicting proj tplCat e lc st)
  have hmac : macCat ∈ comps.getD allComponents → ∀ e ∈ fw.macros,
      classifyAlways (apply_updates fw proj comps resolutions false [] now).1 macCat e
        = .unchanged := by
    intro hcomp e he
    cases hcls : classifyAlways proj macCat e with
    | toAdd =>
      have hmem : (⟨[macCat, e.1], e.2⟩ : FileChange)
          ∈ (get_update_diff fw proj comps).files_to_add :=
        mem_whole_add_mac hcomp ((diffOf_add_spec _ _ _ _).mpr ⟨e, he, hcls, rfl⟩)
      have hprog := applyCore_progress_add fw proj comps resolutions []
        hnd1 hnd2 hnd3 hmem (by simp)
      have hlook : lookupFile (apply_updates fw proj comps resolutions false [] now).1
          [macCat, e.1] = some e.2 := by
        rw [apply_fst_lookup]
        exact hprog.1
      exact classifyAlways_of_same hlook rfl
    | toUpdate =>
      have hmem : (⟨[macCat, e.1], e.2⟩ : FileChange)
          ∈ (get_update_diff fw proj comps).files_to_update :=
        mem_whole_upd_mac hcomp ((diffOf_upd_spec _ _ _ _).mpr ⟨e, he, hcls, rfl⟩)
      have hprog := applyCore_progress_upd fw proj comps resolutions []
        hnd1 hnd2 hnd3 hmem (by simp)
      have hlook : lookupFile (apply_updates fw proj comps resolutions false [] now).1
          [macCat, e.1] = some e.2 := by
        rw [apply_fst_lookup]
        exact hprog.1
      exact classifyAlways_of_same hlook rfl
    | unchanged =>
      obtain ⟨c, hcl, hdig⟩ := classifyAlways_unchanged_inv hcls
      have hadd : ∀ g ∈ (get_update_diff fw proj comps).files_to_add,
          g.path = [macCat, e.1] → g.path ∈ ([] : List LPath) := by
        intro g hg hp
        exfalso
        have h2 := whole_add_path_class_mac hnd2 hg he hp
        rw [hcls] at h2
        cases h2
      have hupd : ∀ g ∈ (get_update_diff fw proj comps).files_to_update,
          g.path = [macCat, e.1] → g.path ∈ ([] : List LPath) := by
        intro g hg hp
        exfalso
        have h2 := whole_upd_path_class_mac hnd2 hg he hp
        rw [hcls] at h2
        cases h2
      have hcnf : ∀ c2 ∈ (get_update_diff fw proj comps).conflicts,
          c2.file_path = [macCat, e.1] →
          resolvedAs resolutions c2 = .use_framework → c2.file_path ∈ ([] : List LPath) := by
        intro c2 hc2 _ _
        rw [hconf] at hc2
        cases hc2
      obtain ⟨hf1, _⟩ := @applyCore_frame fw proj comps resolutions [] [macCat, e.1]
        hadd hupd hcnf
      have hlook : lookupFile (apply_updates fw proj comps resolutions false [] now).1
          [macCat, e.1] = some c := by
        rw [apply_fst_lookup, hf1, hcl]
      exact classifyAlways_of_same hlook hdig
    | conflicting lc st =>
      exact absurd hcls (classifyAlways_ne_conflicting proj macCat e lc st)
  have hqp : qpCat ∈ comps.getD allComponents → ∀ e ∈ fw.question_packs,
      classifyPack (apply_updates fw proj comps resolutions false [] now).1 e
        = .unchanged := by
    intro hcomp e he
    cases hcls : classifyPack proj e with
    | toAdd =>
      have hmem : (⟨[qpCat, e.1], e.2⟩ : FileChange)
          ∈ (get_update_diff fw proj comps).files_to_add :=
        mem_whole_add_qp hcomp ((diffOf_add_spec _ _ _ _).mpr ⟨e, he, hcls, rfl⟩)
      have hprog := applyCore_progress_add fw proj comps resolutions []
        hnd1 hnd2 hnd3 hmem (by simp)
      have hlook : lookupFile (apply_updates fw proj comps resolutions false [] now).1
          [qpCat, e.1] = some e.2 := by
        rw [apply_fst_lookup]
        exact hprog.1
      exact classifyPack_of_same hlook rfl
    | toUpdate =>
      have hmem : (⟨[qpCat, e.1], e.2⟩ : FileChange)
          ∈ (get_update_diff fw proj comps).files_to_update :=
        mem_whole_upd_qp hcomp ((diffOf_upd_spec _ _ _ _).mpr ⟨e, he, hcls, rfl⟩)
      have hprog := applyCore_progress_upd fw proj comps resolutions []
        hnd1 hnd2 hnd3 hmem (by simp)
      have hlook : lookupFile (apply_updates fw proj comps resolutions false [] now).1
          [qpCat, e.1] = some e.2 := by
        rw [apply_fst_lookup]
        exact hprog.1
      exact classifyPack_of_same hlook rfl
    | unchanged =>
      obtain ⟨c, hcl, hdig⟩ := classifyPack_unchanged_inv hcls
      have hadd : ∀ g ∈ (get_update_diff fw proj comps).files_to_add,
          g.path = [qpCat, e.1] → g.path ∈ ([] : List LPath) := by
        intro g hg hp
        exfalso
        have h2 := whole_add_path_class_qp hnd3 hg he hp
        rw [hcls] at h2
        cases h2
      have hupd : ∀ g ∈ (get_update_diff fw proj comps).files_to_update,
          g.path = [qpCat, e.1] → g.path ∈ ([] : List LPath) := by
        intro g hg hp
        exfalso
        have h2 := whole_upd_path_class_qp hnd3 hg he hp
        rw [hcls] at h2
        cases h2
      have hcnf : ∀ c2 ∈ (get_update_diff fw proj comps).conflicts,
          c2.file_path = [qpCat, e.1] →
          resolvedAs resolutions c2 = .use_framework → c2.file_path ∈ ([] : List LPath) := by
        intro c2 hc2 _ _
        rw [hconf] at hc2
        cases hc2
      obtain ⟨hf1, _⟩ := @applyCore_frame fw proj comps resolutions [] [qpCat, e.1]
        hadd hupd hcnf
      have hlook : lookupFile (apply_updates fw proj comps resolutions false [] now).1
          [qpCat, e.1] = some c := by
        rw [apply_fst_lookup, hf1, hcl]
      exact classifyPack_of_same hlook hdig
    | conflicting lc st =>
      exfalso
      have hmem := mem_whole_conf_qp hcomp
        ((diffOf_conf_spec _ _ _ _).mpr ⟨e, he, lc, st, hcls, rfl⟩)
      rw [hconf] at hmem
      cases hmem
  refine ⟨?_, ?_, ?_⟩
  · rw [diff_add_eq]
    have e1 : (if tplCat ∈ comps.getD allComponents then
        (diffOf tplCat (classifyAlways
          (apply_updates fw proj comps resolutions false [] now).1 tplCat)
          fw.templates).files_to_add else []) = [] := by
      rcases Decidable.em (tplCat ∈ comps.getD allComponents) with hp | hp
      · rw [if_pos hp]
        exact (diffOf_fields_nil (htpl hp)).1
      · rw [if_neg hp]
    have e2 : (if macCat ∈ comps.getD allComponents then
        (diffOf macCat (classifyAlways
          (apply_updates fw proj comps resolutions false [] now).1 macCat)
          fw.macros).files_to_add else []) = [] := by
      rcases Decidable.em (macCat ∈ comps.getD allComponents) with hp | hp
      · rw [if_pos hp]
        exact (diffOf_fields_nil (hmac hp)).1
      · rw [if_neg hp]
    have e3 : (if qpCat ∈ comps.getD allComponents then
        (diffOf qpCat (classifyPack
          (apply_updates fw proj comps resolutions false [] now).1)
          fw.question_packs).files_to_add else []) = [] := by
      rcases Decidable.em (qpCat ∈ comps.getD allComponents) with hp | hp
      · rw [if_pos hp]
        exact (diffOf_fields_nil (hqp hp)).1
      · rw [if_neg hp]
    rw [e1, e2, e3]
    rfl
  · rw [diff_upd_eq]
    have e1 : (if tplCat ∈ comps.getD allComponents then
        (diffOf tplCat (classifyAlways
          (apply_updates fw proj comps resolutions false [] now).1 tplCat)
          fw.templates).files_to_update else []) = [] := by
      rcases Decidable.em (tplCat ∈ comps.getD allComponents) with hp | hp
      · rw [if_pos hp]
        exact (diffOf_fields_nil (htpl hp)).2.1
      · rw [if_neg hp]
    have e2 : (if macCat ∈ comps.getD allComponents then
        (diffOf macCat (classifyAlways
          (apply_updates fw proj comps resolutions false [] now).1 macCat)
          fw.macros).files_to_update else []) = [] := by
      rcases Decidable.em (macCat ∈ comps.getD allComponents) with hp | hp
      · rw [if_pos hp]
        exact (diffOf_fields_nil (hmac hp)).2.1
      · rw [if_neg hp]
    have e3 : (if qpCat ∈ comps.getD allComponents then
        (diffOf qpCat (classifyPack
          (apply_updates fw proj comps resolutions false [] now).1)
          fw.question_packs).files_to_update else []) = [] := by
      rcases Decidable.em (qpCat ∈ comps.getD allComponents) with hp | hp
      · rw [if_pos hp]
        exact (diffOf_fields_nil (hqp hp)).2.1
      · rw [if_neg hp]
    rw [e1, e2, e3]
    rfl
  · rw [diff_conf_eq_qp]
    rcases Decidable.em (qpCat ∈ comps.getD allComponents) with hp | hp
    · rw [if_pos hp]
      exact (diffOf_fields_nil (hqp hp)).2.2
    · rw [if_neg hp]

/-- Witness for C7 at a concrete input: re-diffing after a clean apply of
a single template reports nothing to do. -/
theorem C7_idempotence_witness :
    (get_update_diff fwTpl
      (apply_updates fwTpl projTplSame (some [tplCat]) [] false [] nowStamp).1
      (some [tplCat])).files_to_add = [] ∧
    (get_update_diff fwTpl
      (apply_updates fwTpl projTplSame (some [tplCat]) [] false [] nowStamp).1
      (some [tplCat])).files_to_update = [] ∧
    (get_update_diff fwTpl
      (apply_updates fwTpl projTplSame (some [tplCat]) [] false [] nowStamp).1
      (some [tplCat])).conflicts = [] :=
  C7_idempotence fwTpl projTplSame (some [tplCat]) [] nowStamp
    (by simp [fwTpl]) (by simp [fwTpl]) (by simp [fwTpl]) (by decide)

end Ldf
